import Mathlib

/-!
Verification of the speedscope interval-export core.

This file is a shallow embedding of the interval-filtering / frame-compaction
export pipeline found in

  * src/views/interval-selector.tsx   (filterEventsWithContext, getIndexForFrame,
                                       generateJsonPreview, handleExportJson)
  * src/views/application.tsx         (filterEventsWithContext — identical copy)
  * src/config/api-config.ts          (filterEventsWithContext — identical copy,
                                       compressFramesAndRemap, handleExportJson)

Weight coordinates (`at`) are produced by `parseInt(value.toString())` in the
source, so they are integers; we model them as `Int`, on which `parseInt` is
the identity.  JS `Array.prototype.sort` with the comparator
`(a, b) => a.at - b.at` is a stable sort by `at`; it is modelled by the stable
`List.insertionSort` on the `at`-ordering.  A JS `Map` is modelled by an
insertion-ordered association list, which preserves the `for (const [k, v] of
map)` iteration order of the source.
-/

/-- Event type tag: the source uses the strings 'O' (open) and 'C' (close). -/
inductive EType where
  | O : EType
  | C : EType
deriving DecidableEq

/-- One event of the flat stream: `{type, frame, at}`.  The source field `at`
is rendered `atv` because `at` is a reserved word in Lean. -/
structure Event where
  type : EType
  frame : Nat
  atv : Int
deriving DecidableEq

/-- Per-frame state tracked by the first pass of `filterEventsWithContext`:
`{hasOpen, hasClose, openTime?, closeTime?}`.  `openTime`/`closeTime` are
written by the source but never read afterwards. -/
structure FrameState where
  hasOpen : Bool
  hasClose : Bool
  openTime : Option Int
  closeTime : Option Int
deriving DecidableEq

/-- The state a frame starts in: `{hasOpen: false, hasClose: false}`. -/
def FrameState.init : FrameState := ⟨false, false, none, none⟩

/-- In-place update of the entry with key `k` in an insertion-ordered
association list.  Models mutating the object stored under `k` in the JS Map
`frameStates` (the key set and iteration order are unchanged). -/
def setState (m : List (Nat × FrameState)) (k : Nat) (v : FrameState) :
    List (Nat × FrameState) :=
  m.map (fun p => if p.1 = k then (k, v) else p)

/-- One iteration of the first pass of `filterEventsWithContext`
(interval-selector.tsx lines 86-106): events with
`at >= intervalStart && at <= intervalEnd` are recorded in `frameStates`
(hasOpen/hasClose plus open/close times) and pushed onto `filteredEvents`;
events outside the window are skipped.  The `framesInInterval` set of the
source is only used for a `console.log` and is not modelled. -/
def pass1Step (s e : Int) (acc : List (Nat × FrameState) × List Event) (ev : Event) :
    List (Nat × FrameState) × List Event :=
  if s ≤ ev.atv ∧ ev.atv ≤ e then
    let m0 := if (acc.1.lookup ev.frame).isSome then acc.1
              else acc.1 ++ [(ev.frame, FrameState.init)]
    let st := (m0.lookup ev.frame).getD FrameState.init
    match ev.type with
    | EType.O => (setState m0 ev.frame ⟨true, st.hasClose, some ev.atv, st.closeTime⟩,
                  acc.2 ++ [ev])
    | EType.C => (setState m0 ev.frame ⟨st.hasOpen, true, st.openTime, some ev.atv⟩,
                  acc.2 ++ [ev])
  else acc

/-- First pass of `filterEventsWithContext`: the loop
`for (const event of events)` over the input stream. -/
def pass1 (events : List Event) (intervalStart intervalEnd : Int) :
    List (Nat × FrameState) × List Event :=
  events.foldl (pass1Step intervalStart intervalEnd) ([], [])

/-- Second pass of `filterEventsWithContext` (lines 108-129): for every entry
of `frameStates`, in iteration order, synthesize `{C, frame, intervalEnd}`
when the frame has an open but no close in the window, and
`{O, frame, intervalStart}` when it has a close but no open.
(`parseInt(intervalEnd.toString())` is the identity on our `Int` bounds.) -/
def synthFor (intervalStart intervalEnd : Int) (p : Nat × FrameState) : Option Event :=
  if p.2.hasOpen ∧ ¬ p.2.hasClose then some ⟨EType.C, p.1, intervalEnd⟩
  else if ¬ p.2.hasOpen ∧ p.2.hasClose then some ⟨EType.O, p.1, intervalStart⟩
  else none

def syntheticEvents (states : List (Nat × FrameState)) (intervalStart intervalEnd : Int) :
    List Event :=
  states.filterMap (synthFor intervalStart intervalEnd)

/-- The comparator `(a, b) => a.at - b.at`: orders events by `at`. -/
def eventLE (a b : Event) : Prop := a.atv ≤ b.atv

instance : DecidableRel eventLE := fun a b => Int.decLe a.atv b.atv

instance : IsTotal Event eventLE := ⟨fun a b => Int.le_total a.atv b.atv⟩

instance : IsTrans Event eventLE := ⟨fun _ _ _ => Int.le_trans⟩

/-- `array.sort((a, b) => a.at - b.at)`: a stable sort by `at`, modelled by
stable insertion sort. -/
def sortByAt (l : List Event) : List Event := l.insertionSort eventLE

/-- `filterEventsWithContext(events, intervalStart, intervalEnd)` from
interval-selector.tsx lines 79-137 (the copies in application.tsx lines
448-506 and api-config.ts are line-for-line identical): the selected events
of the first pass concatenated with the synthetic boundary events, sorted by
timestamp. -/
def filterEventsWithContext (events : List Event) (intervalStart intervalEnd : Int) :
    List Event :=
  let p := pass1 events intervalStart intervalEnd
  sortByAt (p.2 ++ syntheticEvents p.1 intervalStart intervalEnd)

/-- `sortedEvents.length > 0 ? parseInt(sortedEvents[0].at.toString()) : 0`
(interval-selector.tsx lines 484-485 and 203-204): the exported profile's
`startValue`. -/
def profileStartValue (filteredEvents : List Event) : Int :=
  match sortByAt filteredEvents with
  | [] => 0
  | ev :: _ => ev.atv

/-- `sortedEvents.length > 0 ? parseInt(sortedEvents[len-1].at.toString()) : 0`
(interval-selector.tsx lines 486 and 205): the exported profile's `endValue`. -/
def profileEndValue (filteredEvents : List Event) : Int :=
  match (sortByAt filteredEvents).getLast? with
  | none => 0
  | some ev => ev.atv

/-- The numeric/event content of the single `profiles[0]` entry of the
document built by `handleExportJson` (interval-selector.tsx lines 489-503).
The string metadata (exporter, name, unit, schema URL) is independent of the
windowing logic and not modelled. -/
structure ProfileDoc where
  startValue : Int
  endValue : Int
  events : List Event
deriving DecidableEq

/-- The data path of `handleExportJson` (interval-selector.tsx lines 436-520)
from an encoded event stream and the requested window to the exported
profile: the events are filtered with `filterEventsWithContext` and the
profile bounds are the extremal timestamps of the result.  The function is
total: the source performs no validation of the window whatsoever. -/
def exportFilteredProfile (events : List Event) (startValue endValue : Int) :
    ProfileDoc :=
  let filteredEvents := filterEventsWithContext events startValue endValue
  { startValue := profileStartValue filteredEvents
    endValue := profileEndValue filteredEvents
    events := filteredEvents }

/-- A frame object handed to `getIndexForFrame`.  JS `Map` keys compare by
reference identity; `id` models that identity, so two distinct objects with
identical `name`/`file`/`line`/`col` fields have different `id`s. -/
structure FrameObj where
  id : Nat
  name : String
  file : Option String
  line : Option Int
  col : Option Int
deriving DecidableEq

/-- A serialized frame record: `name` always, `file`/`line`/`col` only when
the source value is non-null (`none` models an omitted field). -/
structure SerFrame where
  name : String
  file : Option String
  line : Option Int
  col : Option Int
deriving DecidableEq

instance : Inhabited SerFrame := ⟨⟨"", none, none, none⟩⟩

/-- The record built on the first call of `getIndexForFrame` for a frame
(interval-selector.tsx lines 154-159): copy `name`; copy `file`, `line`,
`col` only when non-null. -/
def serializeFrame (f : FrameObj) : SerFrame := ⟨f.name, f.file, f.line, f.col⟩

/-- The interner state local to one export invocation: the `frames` output
array and the `indexForFrame` map (keyed by object identity, insertion
ordered). -/
structure InternState where
  frames : List SerFrame
  map : List (Nat × Nat)
deriving DecidableEq

/-- `getIndexForFrame(frame)` from interval-selector.tsx lines 151-165: look
the frame up in `indexForFrame`; on a miss, append the serialized record to
`frames`, record `frames.length` as its index, and return it. -/
def getIndexForFrame (f : FrameObj) (s : InternState) : Nat × InternState :=
  match s.map.lookup f.id with
  | some index => (index, s)
  | none => (s.frames.length,
             ⟨s.frames ++ [serializeFrame f], s.map ++ [(f.id, s.frames.length)]⟩)

/-- Run one export invocation's interner over a sequence of frame lookups,
starting from the empty `frames`/`indexForFrame` created at lines 148-149. -/
def intern (l : List FrameObj) : InternState :=
  l.foldl (fun s f => (getIndexForFrame f s).2) ⟨[], []⟩

/-- The loop of `compressFramesAndRemap` (api-config.ts lines 444-452): fold
over the events; on the first reference of a frame index, record
`newFrames.length` for it in `oldToNew` and push `frames[ev.frame]` onto
`newFrames`.  (The `used` set computed at lines 442-443 of the source is
never read afterwards and is not modelled.)  Out-of-range access
`frames[ev.frame]` is modelled by `getD` with the default element. -/
def compressStep {α : Type} [Inhabited α] (frames : List α)
    (acc : List (Nat × Nat) × List α) (ev : Event) : List (Nat × Nat) × List α :=
  if (acc.1.lookup ev.frame).isSome then acc
  else (acc.1 ++ [(ev.frame, acc.2.length)],
        acc.2 ++ [(frames.get? ev.frame).getD default])

def buildCompress {α : Type} [Inhabited α] (frames : List α) (events : List Event) :
    List (Nat × Nat) × List α :=
  events.foldl (compressStep frames) ([], [])

/-- `compressFramesAndRemap(frames, events)` from api-config.ts lines
438-455: the compacted frame table together with the event stream rewritten
through `oldToNew` (`oldToNew.get(ev.frame)!` is modelled by `getD 0`; the
lookup never misses because every event frame was inserted in the fold). -/
def compressFramesAndRemap {α : Type} [Inhabited α]
    (frames : List α) (events : List Event) : List α × List Event :=
  let r := buildCompress frames events
  (r.2, events.map (fun ev => { ev with frame := (r.1.lookup ev.frame).getD 0 }))

/-- Position of the first occurrence of `x` in `l` (`l.length` when absent);
used to state "ordered by first reference in the event stream". -/
def firstPos (x : Nat) : List Nat → Nat
  | [] => 0
  | a :: l => if a = x then 0 else firstPos x l + 1

/-- The window test `event.at >= intervalStart && event.at <= intervalEnd`. -/
def inWindow (s e : Int) (ev : Event) : Bool := decide (s ≤ ev.atv ∧ ev.atv ≤ e)

/-- `true` on the open events of frame `f`. -/
def isOpenOf (f : Nat) (ev : Event) : Bool := decide (ev.frame = f ∧ ev.type = EType.O)

/-- `true` on the close events of frame `f`. -/
def isCloseOf (f : Nat) (ev : Event) : Bool := decide (ev.frame = f ∧ ev.type = EType.C)

/-- Invariant relating the `frameStates` map to the events selected so far. -/
def statesInv (fl : List Event) (m : List (Nat × FrameState)) : Prop :=
  (m.map Prod.fst).Nodup ∧
  (∀ f : Nat, (m.lookup f).isSome ↔ f ∈ fl.map Event.frame) ∧
  (∀ f st, m.lookup f = some st →
    (st.hasOpen = true ↔ ∃ ev ∈ fl, ev.frame = f ∧ ev.type = EType.O) ∧
    (st.hasClose = true ↔ ∃ ev ∈ fl, ev.frame = f ∧ ev.type = EType.C))

/-- The encoded event stream of concrete scenario A of the spec: nested calls
`main[0,900] → A[100,800] → B[200,500] → C[300,400]` and `A → D[600,700]`,
with frame indices main=0, A=1, B=2, C=3, D=4 in depth-first interning
order. -/
def demoA : List Event :=
  [⟨EType.O, 0, 0⟩, ⟨EType.O, 1, 100⟩, ⟨EType.O, 2, 200⟩, ⟨EType.O, 3, 300⟩,
   ⟨EType.C, 3, 400⟩, ⟨EType.C, 2, 500⟩, ⟨EType.O, 4, 600⟩, ⟨EType.C, 4, 700⟩,
   ⟨EType.C, 1, 800⟩, ⟨EType.C, 0, 900⟩]

/-! ### Association-list lemmas -/

theorem nat_beq_false {k a : Nat} (h : k ≠ a) : (k == a) = false := by
  simpa using h

theorem lookup_isSome_iff {β : Type} (m : List (Nat × β)) (k : Nat) :
    (m.lookup k).isSome ↔ k ∈ m.map Prod.fst := by
  induction m with
  | nil => simp [List.lookup]
  | cons p m ih =>
    cases p with
    | mk a b =>
      by_cases hk : k = a
      · subst hk
        simp [List.lookup_cons]
      · rw [List.lookup_cons, nat_beq_false hk]
        simp only [List.map_cons, List.mem_cons]
        rw [ih]
        simp [hk]

theorem lookup_append_left {β : Type} (m m2 : List (Nat × β)) (k : Nat)
    (h : (m.lookup k).isSome) : (m ++ m2).lookup k = m.lookup k := by
  induction m with
  | nil => simp [List.lookup] at h
  | cons p m ih =>
    cases p with
    | mk a b =>
      by_cases hk : k = a
      · subst hk
        simp [List.lookup_cons]
      · rw [List.lookup_cons, nat_beq_false hk] at h
        rw [List.cons_append, List.lookup_cons, nat_beq_false hk,
          List.lookup_cons, nat_beq_false hk]
        exact ih h

theorem lookup_append_right {β : Type} (m m2 : List (Nat × β)) (k : Nat)
    (h : m.lookup k = none) : (m ++ m2).lookup k = m2.lookup k := by
  induction m with
  | nil => simp
  | cons p m ih =>
    cases p with
    | mk a b =>
      by_cases hk : k = a
      · subst hk
        rw [List.lookup_cons] at h
        simp at h
      · rw [List.lookup_cons, nat_beq_false hk] at h
        rw [List.cons_append, List.lookup_cons, nat_beq_false hk]
        exact ih h

theorem lookup_not_mem {β : Type} (m : List (Nat × β)) (k : Nat)
    (h : k ∉ m.map Prod.fst) : m.lookup k = none := by
  cases hl : m.lookup k with
  | none => rfl
  | some v =>
    exact absurd ((lookup_isSome_iff m k).mp (by simp [hl])) h

theorem lookup_mem {β : Type} (m : List (Nat × β)) (k : Nat) (v : β)
    (h : m.lookup k = some v) : (k, v) ∈ m := by
  induction m with
  | nil => simp [List.lookup] at h
  | cons p m ih =>
    cases p with
    | mk a b =>
      by_cases hk : k = a
      · subst hk
        rw [List.lookup_cons] at h
        simp at h
        simp [h]
      · rw [List.lookup_cons, nat_beq_false hk] at h
        exact List.mem_cons_of_mem _ (ih h)

/-! ### setState lemmas -/

theorem setState_keys (m : List (Nat × FrameState)) (k : Nat) (v : FrameState) :
    (setState m k v).map Prod.fst = m.map Prod.fst := by
  unfold setState
  rw [List.map_map]
  apply List.map_congr_left
  intro p _
  by_cases hp : p.1 = k
  · simp [hp]
  · simp [hp]

theorem lookup_setState_self (m : List (Nat × FrameState)) (k : Nat) (v : FrameState)
    (h : k ∈ m.map Prod.fst) : (setState m k v).lookup k = some v := by
  induction m with
  | nil => simp at h
  | cons p m ih =>
    cases p with
    | mk a b =>
      by_cases ha : a = k
      · subst ha
        show List.lookup a ((if a = a then (a, v) else (a, b)) :: setState m a v) = some v
        rw [if_pos rfl, List.lookup_cons]
        simp
      · have hk : k ≠ a := fun hh => ha hh.symm
        show List.lookup k ((if a = k then (k, v) else (a, b)) :: setState m k v) = some v
        rw [if_neg ha, List.lookup_cons, nat_beq_false hk]
        apply ih
        simp only [List.map_cons, List.mem_cons] at h
        exact h.resolve_left hk

theorem lookup_setState_other (m : List (Nat × FrameState)) (k g : Nat) (v : FrameState)
    (h : g ≠ k) : (setState m k v).lookup g = m.lookup g := by
  induction m with
  | nil => rfl
  | cons p m ih =>
    cases p with
    | mk a b =>
      by_cases ha : a = k
      · subst ha
        show List.lookup g ((if a = a then (a, v) else (a, b)) :: setState m a v) = _
        rw [if_pos rfl, List.lookup_cons, List.lookup_cons, nat_beq_false h]
        exact ih
      · show List.lookup g ((if a = k then (k, v) else (a, b)) :: setState m k v) = _
        rw [if_neg ha]
        by_cases hg : g = a
        · subst hg
          rw [List.lookup_cons, List.lookup_cons]
          simp
        · rw [List.lookup_cons, List.lookup_cons, nat_beq_false hg]
          exact ih

/-! ### First-pass characterization -/

theorem pass1Step_snd_in (s e : Int) (acc : List (Nat × FrameState) × List Event)
    (ev : Event) (h : s ≤ ev.atv ∧ ev.atv ≤ e) :
    (pass1Step s e acc ev).2 = acc.2 ++ [ev] := by
  obtain ⟨t, f, a⟩ := ev
  cases t <;> simp [pass1Step, h]

theorem pass1Step_out (s e : Int) (acc : List (Nat × FrameState) × List Event)
    (ev : Event) (h : ¬ (s ≤ ev.atv ∧ ev.atv ≤ e)) :
    pass1Step s e acc ev = acc := by
  simp [pass1Step, h]

theorem pass1_foldl_snd (s e : Int) (l : List Event)
    (acc : List (Nat × FrameState) × List Event) :
    (l.foldl (pass1Step s e) acc).2 = acc.2 ++ l.filter (inWindow s e) := by
  induction l generalizing acc with
  | nil => simp
  | cons ev l ih =>
    rw [List.foldl_cons, ih]
    by_cases h : s ≤ ev.atv ∧ ev.atv ≤ e
    · have hw : inWindow s e ev = true := by simp [inWindow, h]
      rw [List.filter_cons, if_pos hw, pass1Step_snd_in s e acc ev h]
      simp
    · have hw : inWindow s e ev = false := by simp [inWindow]; omega
      rw [List.filter_cons, hw, pass1Step_out s e acc ev h]
      simp

/-- The selected events of the first pass are exactly the events inside the
window, in stream order. -/
theorem pass1_snd (events : List Event) (s e : Int) :
    (pass1 events s e).2 = events.filter (inWindow s e) := by
  simpa using pass1_foldl_snd s e events ([], [])


theorem lookup_append_single_other {β : Type} (m : List (Nat × β)) (f g : Nat) (x : β)
    (h : g ≠ f) : (m ++ [(f, x)]).lookup g = m.lookup g := by
  by_cases hs : (m.lookup g).isSome
  · exact lookup_append_left m [(f, x)] g hs
  · have hn : m.lookup g = none := Option.not_isSome_iff_eq_none.mp hs
    rw [lookup_append_right m [(f, x)] g hn, hn, List.lookup_cons, nat_beq_false h]
    rfl

theorem no_event_of_not_mem {fl : List Event} {f : Nat}
    (h : f ∉ fl.map Event.frame) (P : Event → Prop) :
    ¬ ∃ ev ∈ fl, ev.frame = f ∧ P ev := by
  rintro ⟨ev, hev, hf, -⟩
  exact h (List.mem_map.mpr ⟨ev, hev, hf⟩)

theorem statesInv_update_hit (m : List (Nat × FrameState)) (fl : List Event)
    (f : Nat) (st0 u : FrameState) (ev : Event)
    (h : statesInv fl m) (hl0 : m.lookup f = some st0) (hevf : ev.frame = f)
    (hopen : u.hasOpen = true ↔ (st0.hasOpen = true ∨ ev.type = EType.O))
    (hclose : u.hasClose = true ↔ (st0.hasClose = true ∨ ev.type = EType.C)) :
    statesInv (fl ++ [ev]) (setState m f u) := by
  obtain ⟨hnd, hmem, hst⟩ := h
  have hfk : f ∈ m.map Prod.fst :=
    (lookup_isSome_iff m f).mp (by simp [hl0])
  refine ⟨by rw [setState_keys]; exact hnd, ?_, ?_⟩
  · intro g
    rw [List.map_append]
    by_cases hg : g = f
    · subst hg
      rw [lookup_setState_self m g u hfk]
      refine ⟨fun _ => ?_, fun _ => rfl⟩
      exact List.mem_append_right _ (by simp [hevf])
    · rw [lookup_setState_other m f g u hg, hmem g]
      constructor
      · exact fun hh => List.mem_append_left _ hh
      · intro hh
        rcases List.mem_append.mp hh with hh | hh
        · exact hh
        · simp at hh
          exact absurd (hh.trans hevf) hg
  · intro g stg hlg
    by_cases hg : g = f
    · subst hg
      rw [lookup_setState_self m g u hfk] at hlg
      obtain rfl : u = stg := Option.some.inj hlg
      have hiff := hst g st0 hl0
      constructor
      · rw [hopen, hiff.1]
        constructor
        · rintro (⟨ev2, h2, hf2, ht2⟩ | ht)
          · exact ⟨ev2, List.mem_append_left _ h2, hf2, ht2⟩
          · exact ⟨ev, List.mem_append_right _ (by simp), hevf, ht⟩
        · rintro ⟨ev2, h2, hf2, ht2⟩
          rcases List.mem_append.mp h2 with h2 | h2
          · exact Or.inl ⟨ev2, h2, hf2, ht2⟩
          · obtain rfl : ev2 = ev := by simpa using h2
            exact Or.inr ht2
      · rw [hclose, hiff.2]
        constructor
        · rintro (⟨ev2, h2, hf2, ht2⟩ | ht)
          · exact ⟨ev2, List.mem_append_left _ h2, hf2, ht2⟩
          · exact ⟨ev, List.mem_append_right _ (by simp), hevf, ht⟩
        · rintro ⟨ev2, h2, hf2, ht2⟩
          rcases List.mem_append.mp h2 with h2 | h2
          · exact Or.inl ⟨ev2, h2, hf2, ht2⟩
          · obtain rfl : ev2 = ev := by simpa using h2
            exact Or.inr ht2
    · rw [lookup_setState_other m f g u hg] at hlg
      have hiff := hst g stg hlg
      constructor
      · rw [hiff.1]
        constructor
        · rintro ⟨ev2, h2, hf2, ht2⟩
          exact ⟨ev2, List.mem_append_left _ h2, hf2, ht2⟩
        · rintro ⟨ev2, h2, hf2, ht2⟩
          rcases List.mem_append.mp h2 with h2 | h2
          · exact ⟨ev2, h2, hf2, ht2⟩
          · obtain rfl : ev2 = ev := by simpa using h2
            exact absurd (hevf.symm.trans hf2).symm hg
      · rw [hiff.2]
        constructor
        · rintro ⟨ev2, h2, hf2, ht2⟩
          exact ⟨ev2, List.mem_append_left _ h2, hf2, ht2⟩
        · rintro ⟨ev2, h2, hf2, ht2⟩
          rcases List.mem_append.mp h2 with h2 | h2
          · exact ⟨ev2, h2, hf2, ht2⟩
          · obtain rfl : ev2 = ev := by simpa using h2
            exact absurd (hevf.symm.trans hf2).symm hg

theorem statesInv_update_miss (m : List (Nat × FrameState)) (fl : List Event)
    (f : Nat) (u : FrameState) (ev : Event)
    (h : statesInv fl m) (hl0 : m.lookup f = none) (hevf : ev.frame = f)
    (hopen : u.hasOpen = true ↔ ev.type = EType.O)
    (hclose : u.hasClose = true ↔ ev.type = EType.C) :
    statesInv (fl ++ [ev]) (setState (m ++ [(f, FrameState.init)]) f u) := by
  obtain ⟨hnd, hmem, hst⟩ := h
  have hfnk : f ∉ m.map Prod.fst := by
    intro hmemf
    have hs := (lookup_isSome_iff m f).mpr hmemf
    rw [hl0] at hs
    simp at hs
  have hfl : f ∉ fl.map Event.frame := by
    intro hh
    have hs := (hmem f).mpr hh
    rw [hl0] at hs
    simp at hs
  have hfk : f ∈ (m ++ [(f, FrameState.init)]).map Prod.fst := by
    rw [List.map_append]
    exact List.mem_append_right _ (by simp)
  refine ⟨?_, ?_, ?_⟩
  · rw [setState_keys, List.map_append]
    simp [List.nodup_append, hnd, hfnk]
  · intro g
    rw [List.map_append]
    by_cases hg : g = f
    · subst hg
      rw [lookup_setState_self _ g u hfk]
      refine ⟨fun _ => ?_, fun _ => rfl⟩
      exact List.mem_append_right _ (by simp [hevf])
    · rw [lookup_setState_other _ f g u hg, lookup_append_single_other m f g _ hg,
        hmem g]
      constructor
      · exact fun hh => List.mem_append_left _ hh
      · intro hh
        rcases List.mem_append.mp hh with hh | hh
        · exact hh
        · simp at hh
          exact absurd (hh.trans hevf) hg
  · intro g stg hlg
    by_cases hg : g = f
    · subst hg
      rw [lookup_setState_self _ g u hfk] at hlg
      obtain rfl : u = stg := Option.some.inj hlg
      constructor
      · rw [hopen]
        constructor
        · intro ht
          exact ⟨ev, List.mem_append_right _ (by simp), hevf, ht⟩
        · rintro ⟨ev2, h2, hf2, ht2⟩
          rcases List.mem_append.mp h2 with h2 | h2
          · exact absurd (List.mem_map.mpr ⟨ev2, h2, hf2⟩) hfl
          · obtain rfl : ev2 = ev := by simpa using h2
            exact ht2
      · rw [hclose]
        constructor
        · intro ht
          exact ⟨ev, List.mem_append_right _ (by simp), hevf, ht⟩
        · rintro ⟨ev2, h2, hf2, ht2⟩
          rcases List.mem_append.mp h2 with h2 | h2
          · exact absurd (List.mem_map.mpr ⟨ev2, h2, hf2⟩) hfl
          · obtain rfl : ev2 = ev := by simpa using h2
            exact ht2
    · rw [lookup_setState_other _ f g u hg, lookup_append_single_other m f g _ hg] at hlg
      have hiff := hst g stg hlg
      constructor
      · rw [hiff.1]
        constructor
        · rintro ⟨ev2, h2, hf2, ht2⟩
          exact ⟨ev2, List.mem_append_left _ h2, hf2, ht2⟩
        · rintro ⟨ev2, h2, hf2, ht2⟩
          rcases List.mem_append.mp h2 with h2 | h2
          · exact ⟨ev2, h2, hf2, ht2⟩
          · obtain rfl : ev2 = ev := by simpa using h2
            exact absurd (hevf.symm.trans hf2).symm hg
      · rw [hiff.2]
        constructor
        · rintro ⟨ev2, h2, hf2, ht2⟩
          exact ⟨ev2, List.mem_append_left _ h2, hf2, ht2⟩
        · rintro ⟨ev2, h2, hf2, ht2⟩
          rcases List.mem_append.mp h2 with h2 | h2
          · exact ⟨ev2, h2, hf2, ht2⟩
          · obtain rfl : ev2 = ev := by simpa using h2
            exact absurd (hevf.symm.trans hf2).symm hg

theorem statesInv_step (s e : Int) (acc : List (Nat × FrameState) × List Event)
    (ev : Event) (h : statesInv acc.2 acc.1) :
    statesInv (pass1Step s e acc ev).2 (pass1Step s e acc ev).1 := by
  obtain ⟨m, fl⟩ := acc
  by_cases hw : s ≤ ev.atv ∧ ev.atv ≤ e
  · obtain ⟨t, f, a⟩ := ev
    by_cases hs : (m.lookup f).isSome
    · obtain ⟨st0, hl0⟩ := Option.isSome_iff_exists.mp hs
      cases t
      · have hred : pass1Step s e (m, fl) ⟨EType.O, f, a⟩ =
            (setState m f ⟨true, st0.hasClose, some a, st0.closeTime⟩,
             fl ++ [⟨EType.O, f, a⟩]) := by
          simp [pass1Step, hw, hl0]
        rw [hred]
        exact statesInv_update_hit m fl f st0 _ _ h hl0 rfl (by simp) (by simp)
      · have hred : pass1Step s e (m, fl) ⟨EType.C, f, a⟩ =
            (setState m f ⟨st0.hasOpen, true, st0.openTime, some a⟩,
             fl ++ [⟨EType.C, f, a⟩]) := by
          simp [pass1Step, hw, hl0]
        rw [hred]
        exact statesInv_update_hit m fl f st0 _ _ h hl0 rfl (by simp) (by simp)
    · have hl0 : m.lookup f = none := Option.not_isSome_iff_eq_none.mp hs
      have hens : (m ++ [(f, (⟨false, false, none, none⟩ : FrameState))]).lookup f =
          some ⟨false, false, none, none⟩ := by
        rw [lookup_append_right m _ f hl0, List.lookup_cons]
        simp
      cases t
      · have hred : pass1Step s e (m, fl) ⟨EType.O, f, a⟩ =
            (setState (m ++ [(f, FrameState.init)]) f ⟨true, false, some a, none⟩,
             fl ++ [⟨EType.O, f, a⟩]) := by
          simp [pass1Step, hw, hl0, hens, FrameState.init]
        rw [hred]
        exact statesInv_update_miss m fl f _ _ h hl0 rfl (by simp) (by simp)
      · have hred : pass1Step s e (m, fl) ⟨EType.C, f, a⟩ =
            (setState (m ++ [(f, FrameState.init)]) f ⟨false, true, none, some a⟩,
             fl ++ [⟨EType.C, f, a⟩]) := by
          simp [pass1Step, hw, hl0, hens, FrameState.init]
        rw [hred]
        exact statesInv_update_miss m fl f _ _ h hl0 rfl (by simp) (by simp)
  · rw [pass1Step_out s e (m, fl) ev hw]
    exact h

theorem statesInv_foldl (s e : Int) (l : List Event)
    (acc : List (Nat × FrameState) × List Event) (h : statesInv acc.2 acc.1) :
    statesInv ((l.foldl (pass1Step s e) acc)).2 ((l.foldl (pass1Step s e) acc)).1 := by
  induction l generalizing acc with
  | nil => exact h
  | cons ev l ih =>
    rw [List.foldl_cons]
    exact ih _ (statesInv_step s e acc ev h)

theorem statesInv_nil : statesInv [] [] := by
  refine ⟨List.nodup_nil, ?_, ?_⟩
  · intro f
    simp [List.lookup]
  · intro f st hst
    simp [List.lookup] at hst

/-- The `frameStates` map built by the first pass faithfully records, per
frame index seen in the window, whether an open and whether a close was
selected. -/
theorem pass1_inv (events : List Event) (s e : Int) :
    statesInv (pass1 events s e).2 (pass1 events s e).1 :=
  statesInv_foldl s e events ([], []) statesInv_nil

/-! ### Synthesis-pass lemmas -/

theorem synthFor_frame (s e : Int) (p : Nat × FrameState) (ev : Event)
    (h : synthFor s e p = some ev) : ev.frame = p.1 ∧ (ev.atv = s ∨ ev.atv = e) := by
  unfold synthFor at h
  by_cases h1 : p.2.hasOpen = true ∧ ¬ p.2.hasClose = true
  · rw [if_pos h1] at h
    obtain rfl : (⟨EType.C, p.1, e⟩ : Event) = ev := Option.some.inj h
    simp
  · rw [if_neg h1] at h
    by_cases h2 : ¬ p.2.hasOpen = true ∧ p.2.hasClose = true
    · rw [if_pos h2] at h
      obtain rfl : (⟨EType.O, p.1, s⟩ : Event) = ev := Option.some.inj h
      simp
    · rw [if_neg h2] at h
      simp at h

theorem mem_synth (m : List (Nat × FrameState)) (s e : Int) (ev : Event)
    (h : ev ∈ syntheticEvents m s e) :
    ev.frame ∈ m.map Prod.fst ∧ (ev.atv = s ∨ ev.atv = e) := by
  obtain ⟨q, hq, hfor⟩ := List.mem_filterMap.mp h
  have hf := synthFor_frame s e q ev hfor
  exact ⟨hf.1 ▸ List.mem_map.mpr ⟨q, hq, rfl⟩, hf.2⟩

theorem countP_synth_none (m : List (Nat × FrameState)) (s e : Int) (f : Nat)
    (p : Event → Bool) (hp : ∀ ev, p ev = true → ev.frame = f)
    (hnotmem : f ∉ m.map Prod.fst) :
    (syntheticEvents m s e).countP p = 0 := by
  rw [List.countP_eq_zero]
  intro ev hev hpe
  exact hnotmem (hp ev hpe ▸ (mem_synth m s e ev hev).1)

theorem countP_synth_some (m : List (Nat × FrameState)) (s e : Int) (f : Nat)
    (st : FrameState) (p : Event → Bool)
    (hp : ∀ ev, p ev = true → ev.frame = f)
    (hnd : (m.map Prod.fst).Nodup) (hl : m.lookup f = some st) :
    (syntheticEvents m s e).countP p = ((synthFor s e (f, st)).toList).countP p := by
  induction m with
  | nil => simp [List.lookup] at hl
  | cons q m ih =>
    obtain ⟨a, b⟩ := q
    simp only [List.map_cons, List.nodup_cons] at hnd
    by_cases ha : f = a
    · subst ha
      rw [List.lookup_cons] at hl
      simp only [beq_self_eq_true] at hl
      obtain rfl : b = st := Option.some.inj hl
      have htail : (List.filterMap (synthFor s e) m).countP p = 0 := by
        have hz := countP_synth_none m s e f p hp hnd.1
        simpa [syntheticEvents] using hz
      show (List.filterMap (synthFor s e) ((f, b) :: m)).countP p =
        ((synthFor s e (f, b)).toList).countP p
      rw [List.filterMap_cons]
      cases hfor : synthFor s e (f, b) with
      | none => simp [htail]
      | some ev => simp [List.countP_cons, htail]
    · rw [List.lookup_cons, nat_beq_false ha] at hl
      have ihx : (List.filterMap (synthFor s e) m).countP p =
          ((synthFor s e (f, st)).toList).countP p := by
        have hi := ih hnd.2 hl
        simpa [syntheticEvents] using hi
      show (List.filterMap (synthFor s e) ((a, b) :: m)).countP p =
        ((synthFor s e (f, st)).toList).countP p
      rw [List.filterMap_cons]
      cases hfor : synthFor s e (a, b) with
      | none => simpa using ihx
      | some ev =>
        have hfr : ev.frame = a := (synthFor_frame s e (a, b) ev hfor).1
        have hpe : p ev = false := by
          cases hpv : p ev
          · rfl
          · exact absurd ((hp ev hpv).symm.trans hfr) ha
        rw [List.countP_cons, hpe]
        simpa using ihx

theorem isOpenOf_frame (f : Nat) : ∀ ev, isOpenOf f ev = true → ev.frame = f := by
  intro ev h
  simp [isOpenOf] at h
  exact h.1

theorem isCloseOf_frame (f : Nat) : ∀ ev, isCloseOf f ev = true → ev.frame = f := by
  intro ev h
  simp [isCloseOf] at h
  exact h.1

theorem combined_balance (events : List Event) (s e : Int) (f : Nat)
    (hO : ((pass1 events s e).2).countP (isOpenOf f) ≤ 1)
    (hC : ((pass1 events s e).2).countP (isCloseOf f) ≤ 1) :
    ((pass1 events s e).2 ++ syntheticEvents (pass1 events s e).1 s e).countP (isOpenOf f) =
    ((pass1 events s e).2 ++ syntheticEvents (pass1 events s e).1 s e).countP (isCloseOf f) := by
  obtain ⟨hnd, hmem, hst⟩ := pass1_inv events s e
  rw [List.countP_append, List.countP_append]
  cases hlf : (pass1 events s e).1.lookup f with
  | none =>
    have hnm : f ∉ ((pass1 events s e).2).map Event.frame := by
      intro hh
      have hx := (hmem f).mpr hh
      rw [hlf] at hx
      simp at hx
    have hkm : f ∉ ((pass1 events s e).1).map Prod.fst := by
      intro hh
      have hx := (lookup_isSome_iff _ f).mpr hh
      rw [hlf] at hx
      simp at hx
    have h1 : ((pass1 events s e).2).countP (isOpenOf f) = 0 := by
      rw [List.countP_eq_zero]
      intro ev hev hpe
      exact hnm (List.mem_map.mpr ⟨ev, hev, isOpenOf_frame f ev hpe⟩)
    have h2 : ((pass1 events s e).2).countP (isCloseOf f) = 0 := by
      rw [List.countP_eq_zero]
      intro ev hev hpe
      exact hnm (List.mem_map.mpr ⟨ev, hev, isCloseOf_frame f ev hpe⟩)
    have h3 := countP_synth_none _ s e f _ (isOpenOf_frame f) hkm
    have h4 := countP_synth_none _ s e f _ (isCloseOf_frame f) hkm
    rw [h1, h2, h3, h4]
  | some st =>
    have hiff := hst f st hlf
    have hOpos : st.hasOpen = true ↔ 0 < ((pass1 events s e).2).countP (isOpenOf f) := by
      rw [hiff.1, List.countP_pos_iff]
      constructor
      · rintro ⟨ev, hev, hf2, ht2⟩
        exact ⟨ev, hev, by simp [isOpenOf, hf2, ht2]⟩
      · rintro ⟨ev, hev, hpe⟩
        simp [isOpenOf] at hpe
        exact ⟨ev, hev, hpe.1, hpe.2⟩
    have hCpos : st.hasClose = true ↔ 0 < ((pass1 events s e).2).countP (isCloseOf f) := by
      rw [hiff.2, List.countP_pos_iff]
      constructor
      · rintro ⟨ev, hev, hf2, ht2⟩
        exact ⟨ev, hev, by simp [isCloseOf, hf2, ht2]⟩
      · rintro ⟨ev, hev, hpe⟩
        simp [isCloseOf] at hpe
        exact ⟨ev, hev, hpe.1, hpe.2⟩
    have hsO : ((pass1 events s e).2).countP (isOpenOf f) =
        if st.hasOpen then 1 else 0 := by
      cases hb : st.hasOpen
      · have hz : ¬ 0 < ((pass1 events s e).2).countP (isOpenOf f) := by
          intro hpos
          have hcontr := hOpos.mpr hpos
          rw [hb] at hcontr
          exact Bool.false_ne_true hcontr
        have h0 : ((pass1 events s e).2).countP (isOpenOf f) = 0 := by omega
        rw [h0]
        rfl
      · have hpos := hOpos.mp hb
        have h1 : ((pass1 events s e).2).countP (isOpenOf f) = 1 := by omega
        rw [h1]
        rfl
    have hsC : ((pass1 events s e).2).countP (isCloseOf f) =
        if st.hasClose then 1 else 0 := by
      cases hb : st.hasClose
      · have hz : ¬ 0 < ((pass1 events s e).2).countP (isCloseOf f) := by
          intro hpos
          have hcontr := hCpos.mpr hpos
          rw [hb] at hcontr
          exact Bool.false_ne_true hcontr
        have h0 : ((pass1 events s e).2).countP (isCloseOf f) = 0 := by omega
        rw [h0]
        rfl
      · have hpos := hCpos.mp hb
        have h1 : ((pass1 events s e).2).countP (isCloseOf f) = 1 := by omega
        rw [h1]
        rfl
    have hsynO := countP_synth_some _ s e f st _ (isOpenOf_frame f) hnd hlf
    have hsynC := countP_synth_some _ s e f st _ (isCloseOf_frame f) hnd hlf
    rw [hsO, hsC, hsynO, hsynC]
    cases hb1 : st.hasOpen <;> cases hb2 : st.hasClose <;>
      simp [synthFor, hb1, hb2, isOpenOf, isCloseOf]

/-! ### Even-length machinery -/

theorem countP_frame_split (l : List Event) (f : Nat) :
    (l.countP fun ev => decide (ev.frame = f)) =
      l.countP (isOpenOf f) + l.countP (isCloseOf f) := by
  induction l with
  | nil => simp
  | cons ev l ih =>
    rw [List.countP_cons, List.countP_cons, List.countP_cons, ih]
    obtain ⟨t, fr, a⟩ := ev
    by_cases hf : fr = f
    · cases t <;> simp [isOpenOf, isCloseOf, hf] <;> omega
    · simp [isOpenOf, isCloseOf, hf]

theorem even_length_aux (n : Nat) : ∀ (l : List Event), l.length ≤ n →
    (∀ f : Nat, Even (l.countP fun ev => decide (ev.frame = f))) → Even l.length := by
  induction n with
  | zero =>
    intro l hl _
    rw [List.eq_nil_of_length_eq_zero (Nat.le_zero.mp hl)]
    simp
  | succ n ih =>
    intro l hl h
    cases l with
    | nil => simp
    | cons ev t =>
      have hlen : (ev :: t).length =
          ((ev :: t).countP fun e2 => decide (e2.frame = ev.frame)) +
            ((ev :: t).filter (fun e2 => ! decide (e2.frame = ev.frame))).length := by
        rw [← List.countP_eq_length_filter]
        have hsplit := List.length_eq_countP_add_countP
          (fun e2 : Event => decide (e2.frame = ev.frame)) (ev :: t)
        rw [hsplit]
        congr 1
        apply List.countP_congr
        intro x _
        by_cases hx : x.frame = ev.frame <;> simp [hx]
      have h2 : Even ((ev :: t).filter (fun e2 => ! decide (e2.frame = ev.frame))).length := by
        have hfe : ((ev :: t).filter (fun e2 => ! decide (e2.frame = ev.frame))) =
            t.filter (fun e2 => ! decide (e2.frame = ev.frame)) := by
          rw [List.filter_cons]
          simp
        rw [hfe]
        apply ih
        · calc (t.filter (fun e2 => ! decide (e2.frame = ev.frame))).length
              ≤ t.length := List.length_filter_le _ _
            _ ≤ n := by
              have := hl
              simp at this
              omega
        · intro f
          rw [List.countP_filter]
          by_cases hf : f = ev.frame
          · subst hf
            have hz : (t.countP fun a =>
                decide (a.frame = ev.frame) && ! decide (a.frame = ev.frame)) = 0 := by
              rw [List.countP_eq_zero]
              intro a _
              by_cases ha : a.frame = ev.frame <;> simp [ha]
            rw [hz]
            simp
          · have hcongr : (t.countP fun a =>
                decide (a.frame = f) && ! decide (a.frame = ev.frame)) =
                t.countP fun a => decide (a.frame = f) := by
              apply List.countP_congr
              intro x _
              by_cases hx : x.frame = f
              · have hxe : x.frame ≠ ev.frame := by
                  rw [hx]
                  exact hf
                simp [hx, hxe]
                exact hf
              · simp [hx]
            rw [hcongr]
            have hcons := h f
            rw [List.countP_cons] at hcons
            have hne : decide (ev.frame = f) = false := by
              simp
              exact fun hh => hf hh.symm
            rw [hne] at hcons
            simpa using hcons
      rw [hlen]
      exact (h ev.frame).add h2

theorem even_length_of_balanced (l : List Event)
    (h : ∀ f : Nat, l.countP (isOpenOf f) = l.countP (isCloseOf f)) :
    Even l.length := by
  apply even_length_aux l.length l le_rfl
  intro f
  rw [countP_frame_split l f, h f]
  exact ⟨l.countP (isCloseOf f), rfl⟩

/-! ### Sorting and bounds lemmas -/

theorem filterEvents_perm (events : List Event) (s e : Int) :
    List.Perm (filterEventsWithContext events s e)
      ((pass1 events s e).2 ++ syntheticEvents (pass1 events s e).1 s e) := by
  unfold filterEventsWithContext sortByAt
  exact List.perm_insertionSort eventLE _

theorem filterEvents_balance_all (events : List Event) (s e : Int) (f : Nat)
    (hO : (events.filter (inWindow s e)).countP (isOpenOf f) ≤ 1)
    (hC : (events.filter (inWindow s e)).countP (isCloseOf f) ≤ 1) :
    (filterEventsWithContext events s e).countP (isOpenOf f) =
      (filterEventsWithContext events s e).countP (isCloseOf f) := by
  have hp := filterEvents_perm events s e
  rw [hp.countP_eq, hp.countP_eq]
  apply combined_balance
  · rw [pass1_snd]
    exact hO
  · rw [pass1_snd]
    exact hC

theorem mem_filterEvents_bounds (events : List Event) (s e : Int) (hle : s ≤ e)
    (ev : Event) (hev : ev ∈ filterEventsWithContext events s e) :
    s ≤ ev.atv ∧ ev.atv ≤ e := by
  have hp := filterEvents_perm events s e
  have hmem := hp.mem_iff.mp hev
  rcases List.mem_append.mp hmem with hm | hm
  · rw [pass1_snd] at hm
    have hw := (List.mem_filter.mp hm).2
    simp [inWindow] at hw
    exact hw
  · rcases (mem_synth _ s e ev hm).2 with h1 | h1
    · rw [h1]
      exact ⟨le_refl s, hle⟩
    · rw [h1]
      exact ⟨hle, le_refl e⟩

theorem pairwise_head_le (x : Event) (t : List Event)
    (h : List.Pairwise eventLE (x :: t)) : ∀ y ∈ x :: t, x.atv ≤ y.atv := by
  intro y hy
  rcases List.mem_cons.mp hy with rfl | hy2
  · exact le_refl _
  · exact (List.pairwise_cons.mp h).1 y hy2

theorem pairwise_le_getLast : ∀ (l : List Event) (hne : l ≠ []),
    List.Pairwise eventLE l → ∀ y ∈ l, y.atv ≤ (l.getLast hne).atv := by
  intro l
  induction l with
  | nil => intro hne; cases hne rfl
  | cons x t ih =>
    intro hne h y hy
    cases t with
    | nil =>
      have : y = x := by simpa using hy
      subst this
      exact le_refl _
    | cons z t2 =>
      have hne2 : z :: t2 ≠ [] := by simp
      rw [List.getLast_cons hne2]
      rcases List.mem_cons.mp hy with rfl | hy2
      · exact (List.pairwise_cons.mp h).1 _ (List.getLast_mem hne2)
      · exact ih hne2 (List.pairwise_cons.mp h).2 y hy2

theorem profileStartValue_min (l : List Event) (ev : Event) (hev : ev ∈ l) :
    profileStartValue l ≤ ev.atv := by
  have hperm : List.Perm (sortByAt l) l := List.perm_insertionSort eventLE l
  have hs : List.Pairwise eventLE (sortByAt l) := List.sorted_insertionSort eventLE l
  have hmem : ev ∈ sortByAt l := hperm.mem_iff.mpr hev
  unfold profileStartValue
  cases hsl : sortByAt l with
  | nil =>
    rw [hsl] at hmem
    simp at hmem
  | cons x t =>
    rw [hsl] at hmem hs
    exact pairwise_head_le x t hs ev hmem

theorem profileEndValue_max (l : List Event) (ev : Event) (hev : ev ∈ l) :
    ev.atv ≤ profileEndValue l := by
  have hperm : List.Perm (sortByAt l) l := List.perm_insertionSort eventLE l
  have hs : List.Pairwise eventLE (sortByAt l) := List.sorted_insertionSort eventLE l
  have hmem : ev ∈ sortByAt l := hperm.mem_iff.mpr hev
  have hne : sortByAt l ≠ [] := by
    intro hh
    rw [hh] at hmem
    simp at hmem
  unfold profileEndValue
  rw [List.getLast?_eq_getLast _ hne]
  exact pairwise_le_getLast (sortByAt l) hne hs ev hmem

theorem profileStartValue_attained (l : List Event) (hne : l ≠ []) :
    ∃ ev ∈ l, ev.atv = profileStartValue l := by
  have hperm : List.Perm (sortByAt l) l := List.perm_insertionSort eventLE l
  have hne2 : sortByAt l ≠ [] := by
    intro hh
    exact hne (List.eq_nil_of_length_eq_zero (by rw [← hperm.length_eq, hh]; rfl))
  unfold profileStartValue
  cases hsl : sortByAt l with
  | nil => exact absurd hsl hne2
  | cons x t =>
    refine ⟨x, ?_, rfl⟩
    apply hperm.mem_iff.mp
    rw [hsl]
    exact List.mem_cons_self x t

theorem profileEndValue_attained (l : List Event) (hne : l ≠ []) :
    ∃ ev ∈ l, ev.atv = profileEndValue l := by
  have hperm : List.Perm (sortByAt l) l := List.perm_insertionSort eventLE l
  have hne2 : sortByAt l ≠ [] := by
    intro hh
    exact hne (List.eq_nil_of_length_eq_zero (by rw [← hperm.length_eq, hh]; rfl))
  unfold profileEndValue
  rw [List.getLast?_eq_getLast _ hne2]
  exact ⟨(sortByAt l).getLast hne2, hperm.mem_iff.mp (List.getLast_mem hne2), rfl⟩

/-! ### Inverted-window behaviour -/

theorem pass1_inverted (events : List Event) (s e : Int) (h : e < s) :
    pass1 events s e = ([], []) := by
  unfold pass1
  have hgen : ∀ (l : List Event) (acc : List (Nat × FrameState) × List Event),
      l.foldl (pass1Step s e) acc = acc := by
    intro l
    induction l with
    | nil => intro acc; rfl
    | cons ev l ih =>
      intro acc
      rw [List.foldl_cons, pass1Step_out s e acc ev (by omega)]
      exact ih acc
  exact hgen events ([], [])

theorem filterEvents_inverted (events : List Event) (s e : Int) (h : e < s) :
    filterEventsWithContext events s e = [] := by
  unfold filterEventsWithContext
  rw [pass1_inverted events s e h]
  rfl

theorem export_inverted (events : List Event) (s e : Int) (h : e < s) :
    exportFilteredProfile events s e = ⟨0, 0, []⟩ := by
  unfold exportFilteredProfile
  rw [filterEvents_inverted events s e h]
  rfl

/-! ### Synthetic-event count -/

theorem filterEvents_length_split (events : List Event) (s e : Int) :
    (filterEventsWithContext events s e).length =
      (events.filter (inWindow s e)).length +
        (syntheticEvents (pass1 events s e).1 s e).length := by
  have hp := filterEvents_perm events s e
  rw [hp.length_eq, List.length_append, pass1_snd]

theorem synth_le_distinct (events : List Event) (s e : Int) :
    (syntheticEvents (pass1 events s e).1 s e).length ≤
      (((events.filter (inWindow s e)).map Event.frame).toFinset).card := by
  obtain ⟨hnd, hmem, hst⟩ := pass1_inv events s e
  have h1 : (syntheticEvents (pass1 events s e).1 s e).length ≤
      ((pass1 events s e).1).length := List.length_filterMap_le _ _
  have hseteq : (((pass1 events s e).1).map Prod.fst).toFinset =
      (((pass1 events s e).2).map Event.frame).toFinset := by
    apply Finset.ext
    intro a
    rw [List.mem_toFinset, List.mem_toFinset, ← lookup_isSome_iff]
    exact hmem a
  have hcard : ((((pass1 events s e).1).map Prod.fst).toFinset).card =
      ((pass1 events s e).1).length := by
    rw [List.toFinset_card_of_nodup hnd, List.length_map]
  rw [← pass1_snd events s e, ← hseteq, hcard]
  exact h1

/-! ### Interner lemmas -/

/-- Invariant of the interner state: the map's values are exactly the dense
indices `0, 1, ..., frames.length - 1` in insertion order, with no duplicate
keys. -/
def internInv (st : InternState) : Prop :=
  st.map.map Prod.snd = List.range st.frames.length ∧ (st.map.map Prod.fst).Nodup

theorem internInv_step (st : InternState) (f : FrameObj) (h : internInv st) :
    internInv (getIndexForFrame f st).2 := by
  obtain ⟨hvals, hnd⟩ := h
  unfold getIndexForFrame
  cases hl : st.map.lookup f.id with
  | some i => exact ⟨hvals, hnd⟩
  | none =>
    refine ⟨?_, ?_⟩
    · show (st.map ++ [(f.id, st.frames.length)]).map Prod.snd =
        List.range (st.frames ++ [serializeFrame f]).length
      rw [List.map_append, hvals, List.length_append]
      simp [List.range_succ]
    · show ((st.map ++ [(f.id, st.frames.length)]).map Prod.fst).Nodup
      rw [List.map_append]
      have hnm : f.id ∉ st.map.map Prod.fst := by
        intro hh
        have hx := (lookup_isSome_iff st.map f.id).mpr hh
        rw [hl] at hx
        simp at hx
      simp [List.nodup_append, hnd, hnm]

theorem internInv_foldl (l : List FrameObj) (st : InternState) (h : internInv st) :
    internInv (l.foldl (fun s f => (getIndexForFrame f s).2) st) := by
  induction l generalizing st with
  | nil => exact h
  | cons f l ih =>
    rw [List.foldl_cons]
    exact ih _ (internInv_step st f h)

theorem internInv_run (l : List FrameObj) : internInv (intern l) :=
  internInv_foldl l ⟨[], []⟩ ⟨by simp, by simp⟩

theorem lookup_preserved_step (st : InternState) (g : FrameObj) (k : Nat) (v : Nat)
    (h : st.map.lookup k = some v) :
    (getIndexForFrame g st).2.map.lookup k = some v := by
  unfold getIndexForFrame
  cases hl : st.map.lookup g.id with
  | some i => exact h
  | none =>
    show (st.map ++ [(g.id, st.frames.length)]).lookup k = some v
    rw [lookup_append_left st.map _ k (by simp [h])]
    exact h

theorem lookup_preserved_foldl (l : List FrameObj) (st : InternState) (k v : Nat)
    (h : st.map.lookup k = some v) :
    (l.foldl (fun s f => (getIndexForFrame f s).2) st).map.lookup k = some v := by
  induction l generalizing st with
  | nil => exact h
  | cons g l ih =>
    rw [List.foldl_cons]
    exact ih _ (lookup_preserved_step st g k v h)

theorem isSome_foldl (l : List FrameObj) (st : InternState) (f : FrameObj)
    (hf : f ∈ l) :
    ((l.foldl (fun s g => (getIndexForFrame g s).2) st).map.lookup f.id).isSome := by
  induction l generalizing st with
  | nil => simp at hf
  | cons g l ih =>
    rw [List.foldl_cons]
    rcases List.mem_cons.mp hf with rfl | hf2
    · have hsome : ∃ v, ((getIndexForFrame f st).2.map.lookup f.id) = some v := by
        unfold getIndexForFrame
        cases hl : st.map.lookup f.id with
        | some i => exact ⟨i, hl⟩
        | none =>
          refine ⟨st.frames.length, ?_⟩
          show (st.map ++ [(f.id, st.frames.length)]).lookup f.id = _
          rw [lookup_append_right st.map _ f.id hl, List.lookup_cons]
          simp
      obtain ⟨v, hv⟩ := hsome
      have hp := lookup_preserved_foldl l _ f.id v hv
      simp [hp]
    · exact ih _ hf2

theorem intern_lookup_isSome (l : List FrameObj) (f : FrameObj) (hf : f ∈ l) :
    ((intern l).map.lookup f.id).isSome :=
  isSome_foldl l ⟨[], []⟩ f hf

theorem lookup_values_distinct {β : Type} [DecidableEq β] (m : List (Nat × β))
    (hvals : (m.map Prod.snd).Nodup) (k1 k2 : Nat) (v1 v2 : β)
    (h1 : m.lookup k1 = some v1) (h2 : m.lookup k2 = some v2) (hk : k1 ≠ k2) :
    v1 ≠ v2 := by
  induction m with
  | nil => simp [List.lookup] at h1
  | cons q m ih =>
    obtain ⟨a, b⟩ := q
    simp only [List.map_cons, List.nodup_cons] at hvals
    by_cases ha1 : k1 = a
    · subst ha1
      rw [List.lookup_cons] at h1
      simp only [beq_self_eq_true] at h1
      obtain rfl : b = v1 := Option.some.inj h1
      rw [List.lookup_cons, nat_beq_false (fun hh => hk hh.symm)] at h2
      have hv2 : v2 ∈ m.map Prod.snd :=
        List.mem_map.mpr ⟨(k2, v2), lookup_mem m k2 v2 h2, rfl⟩
      intro he
      rw [he] at hvals
      exact hvals.1 hv2
    · rw [List.lookup_cons, nat_beq_false ha1] at h1
      by_cases ha2 : k2 = a
      · subst ha2
        rw [List.lookup_cons] at h2
        simp only [beq_self_eq_true] at h2
        obtain rfl : b = v2 := Option.some.inj h2
        have hv1 : v1 ∈ m.map Prod.snd :=
          List.mem_map.mpr ⟨(k1, v1), lookup_mem m k1 v1 h1, rfl⟩
        intro he
        rw [← he] at hvals
        exact hvals.1 hv1
      · rw [List.lookup_cons, nat_beq_false ha2] at h2
        exact ih hvals.2 h1 h2

/-! ### firstPos lemmas -/

theorem firstPos_lt_length_of_mem (x : Nat) (P : List Nat) (h : x ∈ P) :
    firstPos x P < P.length := by
  induction P with
  | nil => simp at h
  | cons a P ih =>
    by_cases ha : a = x
    · simp [firstPos, ha]
    · have hx : x ∈ P := by
        rcases List.mem_cons.mp h with rfl | hh
        · exact absurd rfl ha
        · exact hh
      simp only [firstPos, if_neg ha, List.length_cons]
      exact Nat.succ_lt_succ (ih hx)

theorem firstPos_append_mem (x : Nat) (P Q : List Nat) (h : x ∈ P) :
    firstPos x (P ++ Q) = firstPos x P := by
  induction P with
  | nil => simp at h
  | cons a P ih =>
    by_cases ha : a = x
    · simp [firstPos, ha]
    · have hx : x ∈ P := by
        rcases List.mem_cons.mp h with rfl | hh
        · exact absurd rfl ha
        · exact hh
      simp only [List.cons_append, firstPos, if_neg ha, List.append_eq]
      rw [ih hx]

theorem firstPos_append_fresh (x : Nat) (P : List Nat) (h : x ∉ P) :
    firstPos x (P ++ [x]) = P.length := by
  induction P with
  | nil => simp [firstPos]
  | cons a P ih =>
    have ha : a ≠ x := by
      intro hh
      exact h (hh ▸ List.mem_cons_self a P)
    have hx : x ∉ P := fun hh => h (List.mem_cons_of_mem a hh)
    simp only [List.cons_append, firstPos, if_neg ha, List.length_cons,
      List.append_eq]
    rw [ih hx]

theorem firstPos_map_inj (g : Nat → Nat) (x : Nat) (P : List Nat) (hx : x ∈ P)
    (hinj : ∀ y ∈ P, g y = g x → y = x) :
    firstPos (g x) (P.map g) = firstPos x P := by
  induction P with
  | nil => simp at hx
  | cons a P ih =>
    by_cases ha : a = x
    · simp [firstPos, ha]
    · have hgx : g a ≠ g x := by
        intro hh
        exact ha (hinj a (List.mem_cons_self a P) hh)
      have hx2 : x ∈ P := by
        rcases List.mem_cons.mp hx with rfl | hh
        · exact absurd rfl ha
        · exact hh
      simp only [List.map_cons, firstPos, if_neg ha, if_neg hgx]
      rw [ih hx2 (fun y hy => hinj y (List.mem_cons_of_mem a hy))]

/-! ### Frame-compaction invariant -/

/-- Invariant of `compressFramesAndRemap`'s fold after consuming a frame
sequence `P`: the `oldToNew` map has no duplicate keys, assigns the dense
values `0, 1, ...` in insertion order, `newFrames` mirrors the map through
the old table, the keys are exactly the referenced indices, and keys are
ordered by first reference in `P`. -/
def compressInv {α : Type} [Inhabited α] (P : List Nat) (frames : List α)
    (m : List (Nat × Nat)) (nf : List α) : Prop :=
  (m.map Prod.fst).Nodup ∧
  m.map Prod.snd = List.range m.length ∧
  nf = m.map (fun q => (frames.get? q.1).getD default) ∧
  (∀ k : Nat, (m.lookup k).isSome ↔ k ∈ P) ∧
  List.Pairwise (fun q1 q2 : Nat × Nat => firstPos q1.1 P < firstPos q2.1 P) m

theorem compressInv_step {α : Type} [Inhabited α] (P : List Nat) (frames : List α)
    (m : List (Nat × Nat)) (nf : List α) (k : Nat)
    (h : compressInv P frames m nf) :
    compressInv (P ++ [k]) frames
      (if (m.lookup k).isSome then m else m ++ [(k, nf.length)])
      (if (m.lookup k).isSome then nf else nf ++ [(frames.get? k).getD default]) := by
  obtain ⟨hnd, hvals, hnf, hmem, hord⟩ := h
  have hkeysP : ∀ q ∈ m, q.1 ∈ P := by
    intro q hq
    exact (hmem q.1).mp ((lookup_isSome_iff m q.1).mpr (List.mem_map.mpr ⟨q, hq, rfl⟩))
  by_cases hs : (m.lookup k).isSome
  · rw [if_pos hs, if_pos hs]
    have hkP : k ∈ P := (hmem k).mp hs
    refine ⟨hnd, hvals, hnf, ?_, ?_⟩
    · intro j
      rw [hmem j, List.mem_append]
      constructor
      · exact fun hh => Or.inl hh
      · rintro (hh | hh)
        · exact hh
        · obtain rfl : j = k := by simpa using hh
          exact hkP
    · apply List.Pairwise.imp_of_mem ?_ hord
      intro q1 q2 h1 h2 hlt
      rw [firstPos_append_mem q1.1 P [k] (hkeysP q1 h1),
        firstPos_append_mem q2.1 P [k] (hkeysP q2 h2)]
      exact hlt
  · rw [if_neg hs, if_neg hs]
    have hkn : m.lookup k = none := Option.not_isSome_iff_eq_none.mp hs
    have hknP : k ∉ P := by
      intro hh
      exact hs ((hmem k).mpr hh)
    have hknK : k ∉ m.map Prod.fst := by
      intro hh
      exact hs ((lookup_isSome_iff m k).mpr hh)
    have hlen : nf.length = m.length := by
      rw [hnf, List.length_map]
    refine ⟨?_, ?_, ?_, ?_, ?_⟩
    · rw [List.map_append]
      simp [List.nodup_append, hnd, hknK]
    · rw [List.map_append, hvals, List.length_append, hlen]
      simp [List.range_succ]
    · rw [List.map_append, ← hnf, hlen]
      rfl
    · intro j
      by_cases hj : j = k
      · subst hj
        rw [lookup_append_right m _ j hkn, List.lookup_cons]
        simp
      · rw [lookup_append_single_other m k j _ hj, hmem j, List.mem_append]
        constructor
        · exact fun hh => Or.inl hh
        · rintro (hh | hh)
          · exact hh
          · obtain rfl : j = k := by simpa using hh
            exact absurd rfl hj
    · rw [List.pairwise_append]
      refine ⟨?_, List.pairwise_singleton _ _, ?_⟩
      · apply List.Pairwise.imp_of_mem ?_ hord
        intro q1 q2 h1 h2 hlt
        rw [firstPos_append_mem q1.1 P [k] (hkeysP q1 h1),
          firstPos_append_mem q2.1 P [k] (hkeysP q2 h2)]
        exact hlt
      · intro q hq q2 hq2
        obtain rfl : q2 = (k, nf.length) := by simpa using hq2
        rw [firstPos_append_mem q.1 P [k] (hkeysP q hq),
          firstPos_append_fresh k P hknP]
        exact firstPos_lt_length_of_mem q.1 P (hkeysP q hq)

theorem compressStep_inv {α : Type} [Inhabited α] (P : List Nat) (frames : List α)
    (acc : List (Nat × Nat) × List α) (ev : Event)
    (h : compressInv P frames acc.1 acc.2) :
    compressInv (P ++ [ev.frame]) frames
      (compressStep frames acc ev).1 (compressStep frames acc ev).2 := by
  have hstep := compressInv_step P frames acc.1 acc.2 ev.frame h
  by_cases hs : (acc.1.lookup ev.frame).isSome
  · rw [if_pos hs, if_pos hs] at hstep
    unfold compressStep
    rw [if_pos hs]
    exact hstep
  · rw [if_neg hs, if_neg hs] at hstep
    unfold compressStep
    rw [if_neg hs]
    exact hstep

theorem buildCompress_foldl_inv {α : Type} [Inhabited α] (frames : List α) :
    ∀ (l : List Event) (P : List Nat) (acc : List (Nat × Nat) × List α),
      compressInv P frames acc.1 acc.2 →
      compressInv (P ++ l.map Event.frame) frames
        ((l.foldl (compressStep frames) acc)).1
        ((l.foldl (compressStep frames) acc)).2 := by
  intro l
  induction l with
  | nil =>
    intro P acc h
    simpa using h
  | cons ev l ih =>
    intro P acc h
    rw [List.foldl_cons, List.map_cons]
    have hx := ih (P ++ [ev.frame]) (compressStep frames acc ev)
      (compressStep_inv P frames acc ev h)
    rw [List.append_assoc] at hx
    simpa using hx

theorem compressInv_nil {α : Type} [Inhabited α] (frames : List α) :
    compressInv ([] : List Nat) frames [] [] := by
  refine ⟨by simp, by simp, by simp, ?_, by simp⟩
  intro k
  simp [List.lookup]

theorem buildCompress_inv {α : Type} [Inhabited α] (frames : List α)
    (events : List Event) :
    compressInv (events.map Event.frame) frames
      (buildCompress frames events).1 (buildCompress frames events).2 := by
  have h := buildCompress_foldl_inv frames events [] ([], []) (compressInv_nil frames)
  simpa using h

theorem lookup_get_of_nodup {β : Type} (m : List (Nat × β))
    (hnd : (m.map Prod.fst).Nodup) (j : Nat) (hj : j < m.length) :
    m.lookup (m.get ⟨j, hj⟩).1 = some ((m.get ⟨j, hj⟩).2) := by
  induction m generalizing j with
  | nil => simp at hj
  | cons q m ih =>
    simp only [List.map_cons, List.nodup_cons] at hnd
    cases j with
    | zero =>
      obtain ⟨a, b⟩ := q
      show List.lookup a ((a, b) :: m) = some b
      rw [List.lookup_cons]
      simp
    | succ j =>
      obtain ⟨a, b⟩ := q
      have hj2 : j < m.length := by simpa using hj
      have hget : ((a, b) :: m).get ⟨j + 1, hj⟩ = m.get ⟨j, hj2⟩ := rfl
      rw [hget]
      have hk : (m.get ⟨j, hj2⟩).1 ≠ a := by
        intro hh
        apply hnd.1
        rw [← hh]
        exact List.mem_map.mpr ⟨m.get ⟨j, hj2⟩, List.get_mem m j hj2, rfl⟩
      rw [List.lookup_cons, nat_beq_false hk]
      exact ih hnd.2 j hj2

theorem snd_inj_of_nodup {m : List (Nat × Nat)} (h : (m.map Prod.snd).Nodup)
    {q1 q2 : Nat × Nat} (h1 : q1 ∈ m) (h2 : q2 ∈ m) (he : q1.2 = q2.2) :
    q1 = q2 := by
  induction m with
  | nil => simp at h1
  | cons q m ih =>
    simp only [List.map_cons, List.nodup_cons] at h
    rcases List.mem_cons.mp h1 with he1 | he1
    · rcases List.mem_cons.mp h2 with he2 | he2
      · rw [he1, he2]
      · exfalso
        apply h.1
        rw [← he1, he]
        exact List.mem_map.mpr ⟨q2, he2, rfl⟩
    · rcases List.mem_cons.mp h2 with he2 | he2
      · exfalso
        apply h.1
        rw [← he2, ← he]
        exact List.mem_map.mpr ⟨q1, he1, rfl⟩
      · exact ih h.2 he1 he2

theorem map_range_getD {α : Type} (l : List α) (d : α) :
    (List.range l.length).map (fun i => (l.get? i).getD d) = l := by
  apply List.ext_get
  · simp
  · intro n h1 h2
    rw [List.get_map, List.get_range, List.get?_eq_get h2]
    rfl

theorem lookup_range_pair (n j : Nat) (hj : j < n) :
    (((List.range n).map (fun i => (i, i))).lookup j) = some j := by
  induction n with
  | zero => exact absurd hj (Nat.not_lt_zero j)
  | succ n ih =>
    rw [List.range_succ, List.map_append]
    by_cases hjn : j < n
    · rw [lookup_append_left _ _ j (by simp [ih hjn])]
      exact ih hjn
    · obtain rfl : j = n := by omega
      have hkeys : ((List.range j).map (fun i => (i, i))).map Prod.fst =
          List.range j := by
        rw [List.map_map]
        have hid : (Prod.fst ∘ fun i : Nat => (i, i)) = id := rfl
        rw [hid, List.map_id]
      have hnone : ((List.range j).map (fun i => (i, i))).lookup j = none := by
        apply lookup_not_mem
        rw [hkeys]
        simp
      rw [lookup_append_right _ _ j hnone]
      have hmj : List.map (fun i => (i, i)) [j] = [(j, j)] := rfl
      rw [hmj, List.lookup_cons]
      simp

theorem get_snd_eq {m : List (Nat × Nat)} (hvals : m.map Prod.snd = List.range m.length)
    (j : Nat) (hj : j < m.length) : (m.get ⟨j, hj⟩).2 = j := by
  have hlen : j < (m.map Prod.snd).length := by
    rw [List.length_map]
    exact hj
  have h1 : (m.map Prod.snd).get ⟨j, hlen⟩ = (m.get ⟨j, hj⟩).2 := by
    rw [List.get_map]
  have h2 : (m.map Prod.snd).get ⟨j, hlen⟩ = j := by
    rw [List.get_of_eq hvals ⟨j, hlen⟩, List.get_range]
  rw [← h1, h2]

theorem key_lookup {m : List (Nat × Nat)} (hnd : (m.map Prod.fst).Nodup)
    (hvals : m.map Prod.snd = List.range m.length) (j : Nat) (hj : j < m.length) :
    m.lookup (m.get ⟨j, hj⟩).1 = some j := by
  have h := lookup_get_of_nodup m hnd j hj
  rw [get_snd_eq hvals j hj] at h
  exact h

theorem compress_P2 {α : Type} [Inhabited α] (frames : List α) (events : List Event) :
    ((compressFramesAndRemap frames events).2).map Event.frame =
      (events.map Event.frame).map
        (fun f => ((buildCompress frames events).1.lookup f).getD 0) := by
  simp only [compressFramesAndRemap]
  rw [List.map_map, List.map_map]
  rfl

theorem compress_mFun_inj {α : Type} [Inhabited α] (frames : List α)
    (events : List Event) (f1 f2 : Nat)
    (h1 : f1 ∈ events.map Event.frame) (h2 : f2 ∈ events.map Event.frame)
    (he : ((buildCompress frames events).1.lookup f1).getD 0 =
      ((buildCompress frames events).1.lookup f2).getD 0) : f1 = f2 := by
  obtain ⟨hnd, hvals, hnf, hmem, hord⟩ := buildCompress_inv frames events
  obtain ⟨i1, hi1⟩ := Option.isSome_iff_exists.mp ((hmem f1).mpr h1)
  obtain ⟨i2, hi2⟩ := Option.isSome_iff_exists.mp ((hmem f2).mpr h2)
  rw [hi1, hi2] at he
  simp at he
  subst he
  have hsndnd : ((buildCompress frames events).1.map Prod.snd).Nodup := by
    rw [hvals]
    exact List.nodup_range _
  have heq := snd_inj_of_nodup hsndnd (lookup_mem _ f1 i1 hi1)
    (lookup_mem _ f2 i1 hi2) rfl
  exact congrArg Prod.fst heq

theorem compress_mem_P2 {α : Type} [Inhabited α] (frames : List α)
    (events : List Event) (j : Nat) :
    (j ∈ ((compressFramesAndRemap frames events).2).map Event.frame) ↔
      j < (buildCompress frames events).1.length := by
  obtain ⟨hnd, hvals, hnf, hmem, hord⟩ := buildCompress_inv frames events
  rw [compress_P2]
  constructor
  · intro hj
    obtain ⟨f, hf, hfj⟩ := List.mem_map.mp hj
    obtain ⟨i, hi⟩ := Option.isSome_iff_exists.mp ((hmem f).mpr hf)
    rw [hi] at hfj
    simp at hfj
    subst hfj
    have hj2 : i ∈ (buildCompress frames events).1.map Prod.snd :=
      List.mem_map.mpr ⟨(f, i), lookup_mem _ f i hi, rfl⟩
    rw [hvals] at hj2
    exact List.mem_range.mp hj2
  · intro hj
    have hkey := key_lookup hnd hvals j hj
    have hkeymem : ((buildCompress frames events).1.get ⟨j, hj⟩).1 ∈
        events.map Event.frame := by
      apply (hmem _).mp
      rw [hkey]
      rfl
    apply List.mem_map.mpr
    refine ⟨((buildCompress frames events).1.get ⟨j, hj⟩).1, hkeymem, ?_⟩
    rw [hkey]
    rfl

theorem compress_keys2_eq_range {α : Type} [Inhabited α] (frames : List α)
    (events : List Event) :
    ((buildCompress (compressFramesAndRemap frames events).1
        (compressFramesAndRemap frames events).2).1).map Prod.fst =
      List.range (buildCompress frames events).1.length := by
  obtain ⟨hnd, hvals, hnf, hmem, hord⟩ := buildCompress_inv frames events
  obtain ⟨hnd2, hvals2, hnf2, hmem2, hord2⟩ :=
    buildCompress_inv (compressFramesAndRemap frames events).1
      (compressFramesAndRemap frames events).2
  have hmemiff : ∀ j : Nat,
      (((buildCompress (compressFramesAndRemap frames events).1
        (compressFramesAndRemap frames events).2).1).lookup j).isSome ↔
      j < (buildCompress frames events).1.length := by
    intro j
    rw [hmem2 j, compress_mem_P2]
  have hmemkeys : ∀ j : Nat,
      j ∈ ((buildCompress (compressFramesAndRemap frames events).1
        (compressFramesAndRemap frames events).2).1).map Prod.fst ↔
      j < (buildCompress frames events).1.length := by
    intro j
    rw [← lookup_isSome_iff]
    exact hmemiff j
  have hperm : (((buildCompress (compressFramesAndRemap frames events).1
      (compressFramesAndRemap frames events).2).1).map Prod.fst).Perm
      (List.range (buildCompress frames events).1.length) := by
    rw [List.perm_ext_iff_of_nodup hnd2 (List.nodup_range _)]
    intro a
    rw [hmemkeys a, List.mem_range]
  have htrans : ∀ (j : Nat) (hj : j < (buildCompress frames events).1.length),
      firstPos j (((compressFramesAndRemap frames events).2).map Event.frame) =
        firstPos ((buildCompress frames events).1.get ⟨j, hj⟩).1
          (events.map Event.frame) := by
    intro j hj
    have hkey := key_lookup hnd hvals j hj
    have hkeymem : ((buildCompress frames events).1.get ⟨j, hj⟩).1 ∈
        events.map Event.frame := by
      apply (hmem _).mp
      rw [hkey]
      rfl
    have hmf : (((buildCompress frames events).1.lookup
        ((buildCompress frames events).1.get ⟨j, hj⟩).1).getD 0) = j := by
      rw [hkey]
      rfl
    have hinj := firstPos_map_inj
      (fun f => ((buildCompress frames events).1.lookup f).getD 0)
      ((buildCompress frames events).1.get ⟨j, hj⟩).1
      (events.map Event.frame) hkeymem
      (fun y hy hgy => compress_mFun_inj frames events y _ hy hkeymem hgy)
    simp only [hmf] at hinj
    rw [compress_P2]
    exact hinj
  have hsortedpairs : List.Pairwise (fun q1 q2 : Nat × Nat => q1.1 < q2.1)
      (buildCompress (compressFramesAndRemap frames events).1
        (compressFramesAndRemap frames events).2).1 := by
    apply List.Pairwise.imp_of_mem ?_ hord2
    intro q1 q2 h1 h2 hrel
    have hj1 : q1.1 < (buildCompress frames events).1.length := by
      rw [← hmemkeys q1.1]
      exact List.mem_map.mpr ⟨q1, h1, rfl⟩
    have hj2 : q2.1 < (buildCompress frames events).1.length := by
      rw [← hmemkeys q2.1]
      exact List.mem_map.mpr ⟨q2, h2, rfl⟩
    rw [htrans q1.1 hj1, htrans q2.1 hj2] at hrel
    by_contra hle
    push_neg at hle
    rcases Nat.lt_or_ge q2.1 q1.1 with hlt | hge
    · have hmono := List.pairwise_iff_get.mp hord ⟨q2.1, hj2⟩ ⟨q1.1, hj1⟩ hlt
      exact absurd hmono (Nat.lt_asymm hrel)
    · have heq : q1.1 = q2.1 := Nat.le_antisymm hge hle
      have hgeteq : (buildCompress frames events).1.get ⟨q1.1, hj1⟩ =
          (buildCompress frames events).1.get ⟨q2.1, hj2⟩ := by
        congr 1
        exact Fin.ext heq
      rw [hgeteq] at hrel
      exact Nat.lt_irrefl _ hrel
  have hsorted : List.Pairwise (fun a b : Nat => a < b)
      (((buildCompress (compressFramesAndRemap frames events).1
        (compressFramesAndRemap frames events).2).1).map Prod.fst) :=
    List.pairwise_map.mpr hsortedpairs
  exact List.eq_of_perm_of_sorted hperm hsorted
    (List.pairwise_lt_range _)

theorem compress_m2_eq {α : Type} [Inhabited α] (frames : List α)
    (events : List Event) :
    (buildCompress (compressFramesAndRemap frames events).1
        (compressFramesAndRemap frames events).2).1 =
      (List.range (buildCompress frames events).1.length).map (fun j => (j, j)) := by
  obtain ⟨hnd2, hvals2, hnf2, hmem2, hord2⟩ :=
    buildCompress_inv (compressFramesAndRemap frames events).1
      (compressFramesAndRemap frames events).2
  have hkeys := compress_keys2_eq_range frames events
  have hlen2 : (buildCompress (compressFramesAndRemap frames events).1
      (compressFramesAndRemap frames events).2).1.length =
      (buildCompress frames events).1.length := by
    have h1 := congrArg List.length hkeys
    rw [List.length_map, List.length_range] at h1
    exact h1
  apply List.ext_get
  · rw [List.length_map, List.length_range]
    exact hlen2
  · intro n h1 h2
    have hn : n < (buildCompress frames events).1.length := by
      rw [← hlen2]
      exact h1
    have hfst : ((buildCompress (compressFramesAndRemap frames events).1
        (compressFramesAndRemap frames events).2).1.get ⟨n, h1⟩).1 = n := by
      have hx : (((buildCompress (compressFramesAndRemap frames events).1
          (compressFramesAndRemap frames events).2).1).map Prod.fst).get
          ⟨n, by rw [List.length_map]; exact h1⟩ =
          ((buildCompress (compressFramesAndRemap frames events).1
          (compressFramesAndRemap frames events).2).1.get ⟨n, h1⟩).1 := by
        rw [List.get_map]
      rw [List.get_of_eq hkeys _, List.get_range] at hx
      exact hx.symm
    have hsnd := get_snd_eq hvals2 n h1
    have hr : ((List.range (buildCompress frames events).1.length).map
        (fun j => (j, j))).get ⟨n, h2⟩ = (n, n) := by
      rw [List.get_map, List.get_range]
    rw [hr]
    calc (buildCompress (compressFramesAndRemap frames events).1
        (compressFramesAndRemap frames events).2).1.get ⟨n, h1⟩ =
        (((buildCompress (compressFramesAndRemap frames events).1
        (compressFramesAndRemap frames events).2).1.get ⟨n, h1⟩).1,
         ((buildCompress (compressFramesAndRemap frames events).1
        (compressFramesAndRemap frames events).2).1.get ⟨n, h1⟩).2) := rfl
      _ = (n, n) := by rw [hfst, hsnd]

theorem compressFramesAndRemap_def {α : Type} [Inhabited α] (frames : List α)
    (events : List Event) :
    compressFramesAndRemap frames events =
      ((buildCompress frames events).2,
       events.map (fun ev =>
         { ev with frame := ((buildCompress frames events).1.lookup ev.frame).getD 0 })) :=
  rfl

theorem compress_idem {α : Type} [Inhabited α] (frames : List α)
    (events : List Event) :
    compressFramesAndRemap (compressFramesAndRemap frames events).1
      (compressFramesAndRemap frames events).2 =
    compressFramesAndRemap frames events := by
  obtain ⟨hnd, hvals, hnf, hmem, hord⟩ := buildCompress_inv frames events
  obtain ⟨hnd2, hvals2, hnf2, hmem2, hord2⟩ :=
    buildCompress_inv (compressFramesAndRemap frames events).1
      (compressFramesAndRemap frames events).2
  have hm2 := compress_m2_eq frames events
  have hnflen : (compressFramesAndRemap frames events).1.length =
      (buildCompress frames events).1.length := by
    show (buildCompress frames events).2.length = _
    rw [hnf, List.length_map]
  have hfst : (buildCompress (compressFramesAndRemap frames events).1
      (compressFramesAndRemap frames events).2).2 =
      (compressFramesAndRemap frames events).1 := by
    rw [hnf2, hm2, List.map_map]
    have hcomp : ((fun q : Nat × Nat =>
        ((compressFramesAndRemap frames events).1.get? q.1).getD default) ∘
        fun j => (j, j)) =
        fun j => ((compressFramesAndRemap frames events).1.get? j).getD default := rfl
    rw [hcomp, ← hnflen, map_range_getD]
  have hid : ∀ ev ∈ (compressFramesAndRemap frames events).2,
      ({ ev with frame :=
        ((buildCompress (compressFramesAndRemap frames events).1
          (compressFramesAndRemap frames events).2).1.lookup ev.frame).getD 0 } :
        Event) = ev := by
    intro ev hev
    have hevf : ev.frame ∈ ((compressFramesAndRemap frames events).2).map
        Event.frame := List.mem_map.mpr ⟨ev, hev, rfl⟩
    have hlt : ev.frame < (buildCompress frames events).1.length :=
      (compress_mem_P2 frames events ev.frame).mp hevf
    have hlook : (buildCompress (compressFramesAndRemap frames events).1
        (compressFramesAndRemap frames events).2).1.lookup ev.frame =
        some ev.frame := by
      rw [hm2]
      exact lookup_range_pair _ ev.frame hlt
    rw [hlook]
    obtain ⟨t, f, a⟩ := ev
    rfl
  have hsnd : ((compressFramesAndRemap frames events).2).map
      (fun ev => { ev with frame :=
        ((buildCompress (compressFramesAndRemap frames events).1
          (compressFramesAndRemap frames events).2).1.lookup ev.frame).getD 0 }) =
      (compressFramesAndRemap frames events).2 := by
    have hmapeq : ((compressFramesAndRemap frames events).2).map
        (fun ev => { ev with frame :=
          ((buildCompress (compressFramesAndRemap frames events).1
            (compressFramesAndRemap frames events).2).1.lookup ev.frame).getD 0 }) =
        ((compressFramesAndRemap frames events).2).map (fun ev => ev) :=
      List.map_congr_left hid
    rw [hmapeq]
    exact List.map_id' _
  rw [compressFramesAndRemap_def (compressFramesAndRemap frames events).1
    (compressFramesAndRemap frames events).2, hfst, hsnd]

theorem compress_len_le {α : Type} [Inhabited α] (frames : List α)
    (events : List Event)
    (hvalid : ∀ ev ∈ events, ev.frame < frames.length) :
    (compressFramesAndRemap frames events).1.length ≤ frames.length := by
  obtain ⟨hnd, hvals, hnf, hmem, hord⟩ := buildCompress_inv frames events
  have hlen : (compressFramesAndRemap frames events).1.length =
      ((buildCompress frames events).1.map Prod.fst).length := by
    show (buildCompress frames events).2.length = _
    rw [hnf, List.length_map, List.length_map]
  rw [hlen, ← List.toFinset_card_of_nodup hnd]
  have hsub : ((buildCompress frames events).1.map Prod.fst).toFinset ⊆
      Finset.range frames.length := by
    intro k hk
    rw [List.mem_toFinset] at hk
    have hkF : k ∈ events.map Event.frame :=
      (hmem k).mp ((lookup_isSome_iff _ k).mpr hk)
    obtain ⟨ev, hev, hevk⟩ := List.mem_map.mp hkF
    rw [Finset.mem_range, ← hevk]
    exact hvalid ev hev
  calc ((buildCompress frames events).1.map Prod.fst).toFinset.card
      ≤ (Finset.range frames.length).card := Finset.card_le_card hsub
    _ = frames.length := Finset.card_range _

theorem compress_remap_lt {α : Type} [Inhabited α] (frames : List α)
    (events : List Event) (ev : Event)
    (hev : ev ∈ (compressFramesAndRemap frames events).2) :
    ev.frame < (compressFramesAndRemap frames events).1.length := by
  have hevf : ev.frame ∈ ((compressFramesAndRemap frames events).2).map
      Event.frame := List.mem_map.mpr ⟨ev, hev, rfl⟩
  have hlt := (compress_mem_P2 frames events ev.frame).mp hevf
  have hlen : (compressFramesAndRemap frames events).1.length =
      (buildCompress frames events).1.length := by
    obtain ⟨hnd, hvals, hnf, hmem, hord⟩ := buildCompress_inv frames events
    show (buildCompress frames events).2.length = _
    rw [hnf, List.length_map]
  rw [hlen]
  exact hlt

theorem compress_no_unreferenced {α : Type} [Inhabited α] (frames : List α)
    (events : List Event) (j : Nat)
    (hj : j < (compressFramesAndRemap frames events).1.length) :
    ∃ ev ∈ (compressFramesAndRemap frames events).2, ev.frame = j := by
  have hlen : (compressFramesAndRemap frames events).1.length =
      (buildCompress frames events).1.length := by
    obtain ⟨hnd, hvals, hnf, hmem, hord⟩ := buildCompress_inv frames events
    show (buildCompress frames events).2.length = _
    rw [hnf, List.length_map]
  rw [hlen] at hj
  have hjm := (compress_mem_P2 frames events j).mpr hj
  obtain ⟨ev, hev, hevj⟩ := List.mem_map.mp hjm
  exact ⟨ev, hev, hevj⟩

theorem compress_mem_table {α : Type} [Inhabited α] (frames : List α)
    (events : List Event) (x : α)
    (hvalid : ∀ ev ∈ events, ev.frame < frames.length)
    (hx : x ∈ (compressFramesAndRemap frames events).1) :
    x ∈ frames := by
  obtain ⟨hnd, hvals, hnf, hmem, hord⟩ := buildCompress_inv frames events
  have hx2 : x ∈ (buildCompress frames events).2 := hx
  rw [hnf] at hx2
  obtain ⟨q, hq, hqx⟩ := List.mem_map.mp hx2
  have hkF : q.1 ∈ events.map Event.frame :=
    (hmem q.1).mp ((lookup_isSome_iff _ q.1).mpr (List.mem_map.mpr ⟨q, hq, rfl⟩))
  obtain ⟨ev, hev, hevk⟩ := List.mem_map.mp hkF
  have hlt : q.1 < frames.length := hevk ▸ hvalid ev hev
  rw [← hqx, List.get?_eq_get hlt]
  show (some (frames.get ⟨q.1, hlt⟩)).getD default ∈ frames
  exact List.get_mem frames q.1 hlt

theorem compress_table_content {α : Type} [Inhabited α] (frames : List α)
    (events : List Event) (x : α) :
    x ∈ (compressFramesAndRemap frames events).1 ↔
      ∃ ev ∈ events, (frames.get? ev.frame).getD default = x := by
  obtain ⟨hnd, hvals, hnf, hmem, hord⟩ := buildCompress_inv frames events
  constructor
  · intro hx
    have hx2 : x ∈ (buildCompress frames events).2 := hx
    rw [hnf] at hx2
    obtain ⟨q, hq, hqx⟩ := List.mem_map.mp hx2
    have hkF : q.1 ∈ events.map Event.frame :=
      (hmem q.1).mp ((lookup_isSome_iff _ q.1).mpr (List.mem_map.mpr ⟨q, hq, rfl⟩))
    obtain ⟨ev, hev, hevk⟩ := List.mem_map.mp hkF
    exact ⟨ev, hev, by rw [hevk, hqx]⟩
  · rintro ⟨ev, hev, hevx⟩
    have hkF : ev.frame ∈ events.map Event.frame := List.mem_map.mpr ⟨ev, hev, rfl⟩
    obtain ⟨i, hi⟩ := Option.isSome_iff_exists.mp ((hmem ev.frame).mpr hkF)
    have hq : (ev.frame, i) ∈ (buildCompress frames events).1 :=
      lookup_mem _ ev.frame i hi
    show x ∈ (buildCompress frames events).2
    rw [hnf]
    exact List.mem_map.mpr ⟨(ev.frame, i), hq, hevx⟩

theorem compress_order {α : Type} [Inhabited α]
    (frames : List α) (events : List Event) :
    List.Pairwise
      (fun a b : Nat => firstPos a (events.map Event.frame) <
        firstPos b (events.map Event.frame))
      ((buildCompress frames events).1.map Prod.fst) := by
  obtain ⟨hnd, hvals, hnf, hmem, hord⟩ := buildCompress_inv frames events
  exact List.pairwise_map.mpr hord

theorem compress_events_preserved {α : Type} [Inhabited α] (frames : List α)
    (events : List Event) :
    (compressFramesAndRemap frames events).2.length = events.length ∧
    ∀ k : Nat,
      ((compressFramesAndRemap frames events).2.get? k).map Event.type =
        (events.get? k).map Event.type ∧
      ((compressFramesAndRemap frames events).2.get? k).map Event.atv =
        (events.get? k).map Event.atv := by
  rw [compressFramesAndRemap_def]
  refine ⟨List.length_map _ _, ?_⟩
  intro k
  constructor
  · show ((events.map _).get? k).map Event.type = _
    rw [List.get?_map, Option.map_map]
    rfl
  · show ((events.map _).get? k).map Event.atv = _
    rw [List.get?_map, Option.map_map]
    rfl

theorem getIndexForFrame_hit (st : InternState) (f : FrameObj) (i : Nat)
    (h : st.map.lookup f.id = some i) : getIndexForFrame f st = (i, st) := by
  unfold getIndexForFrame
  rw [h]

theorem getIndexForFrame_miss (st : InternState) (f : FrameObj)
    (h : st.map.lookup f.id = none) :
    getIndexForFrame f st =
      (st.frames.length,
       ⟨st.frames ++ [serializeFrame f], st.map ++ [(f.id, st.frames.length)]⟩) := by
  unfold getIndexForFrame
  rw [h]

theorem intern_append_lookup (l l2 : List FrameObj) (k v : Nat)
    (h : (intern l).map.lookup k = some v) :
    (intern (l ++ l2)).map.lookup k = some v := by
  unfold intern
  rw [List.foldl_append]
  exact lookup_preserved_foldl l2 _ k v h

/-! ### Claim theorems -/

/-- C1 (counterexample): the balance invariant fails as stated.  With the
valid nested stream `O f0, O f0, C f0, C f0` (frame 0 recursing) and the
window `[0, 2]` (with `0 ≤ 2`), the output of `filterEventsWithContext` has
odd length 3: the recursive frame has both an open and a close in-window, so
no synthetic event is added, yet two opens face a single close. -/
theorem c1_balance_counterexample :
    (0 : Int) ≤ 2 ∧
    ¬ Even ((filterEventsWithContext
      [⟨EType.O, 0, 0⟩, ⟨EType.O, 0, 1⟩, ⟨EType.C, 0, 2⟩, ⟨EType.C, 0, 3⟩]
      0 2).length) := by
  refine ⟨by decide, by decide⟩

/-- C1 (amended): for every event stream and window `[s, e]` with `s ≤ e`, if
no frame index recurs inside the window (each frame has at most one Open and
at most one Close with `s ≤ at ≤ e`), then the output of
`filterEventsWithContext` has even length and, for every frame index, the
number of Open events equals the number of Close events. -/
theorem c1_balance_amended (events : List Event) (s e : Int)
    (hle : s ≤ e)
    (hnorec : ∀ f : Nat,
      (events.filter (inWindow s e)).countP (isOpenOf f) ≤ 1 ∧
      (events.filter (inWindow s e)).countP (isCloseOf f) ≤ 1) :
    Even (filterEventsWithContext events s e).length ∧
    ∀ f : Nat,
      (filterEventsWithContext events s e).countP (isOpenOf f) =
        (filterEventsWithContext events s e).countP (isCloseOf f) := by
  have hbal : ∀ f : Nat,
      (filterEventsWithContext events s e).countP (isOpenOf f) =
        (filterEventsWithContext events s e).countP (isCloseOf f) :=
    fun f => filterEvents_balance_all events s e f (hnorec f).1 (hnorec f).2
  exact ⟨even_length_of_balanced _ hbal, hbal⟩

/-- C1 witness: the amended theorem applied to the stream `O f0 at 0,
C f0 at 5` with window `[0, 10]`. -/
theorem c1_balance_amended_witness :
    Even (filterEventsWithContext [⟨EType.O, 0, 0⟩, ⟨EType.C, 0, 5⟩] 0 10).length ∧
    ∀ f : Nat,
      (filterEventsWithContext [⟨EType.O, 0, 0⟩, ⟨EType.C, 0, 5⟩] 0 10).countP
          (isOpenOf f) =
        (filterEventsWithContext [⟨EType.O, 0, 0⟩, ⟨EType.C, 0, 5⟩] 0 10).countP
          (isCloseOf f) := by
  apply c1_balance_amended [⟨EType.O, 0, 0⟩, ⟨EType.C, 0, 5⟩] 0 10 (by decide)
  intro f
  by_cases hf : f = 0
  · subst hf
    exact ⟨by decide, by decide⟩
  · have h1 : (([⟨EType.O, 0, 0⟩, ⟨EType.C, 0, 5⟩] : List Event).filter
        (inWindow 0 10)).countP (isOpenOf f) = 0 := by
      apply List.countP_eq_zero.mpr
      intro ev hev hpe
      have hfr : ev.frame = 0 := by fin_cases hev <;> rfl
      have h2 := isOpenOf_frame f ev hpe
      rw [hfr] at h2
      exact hf h2.symm
    have h3 : (([⟨EType.O, 0, 0⟩, ⟨EType.C, 0, 5⟩] : List Event).filter
        (inWindow 0 10)).countP (isCloseOf f) = 0 := by
      apply List.countP_eq_zero.mpr
      intro ev hev hpe
      have hfr : ev.frame = 0 := by fin_cases hev <;> rfl
      have h2 := isCloseOf_frame f ev hpe
      rw [hfr] at h2
      exact hf h2.symm
    rw [h1, h3]
    exact ⟨by omega, by omega⟩

/-- C2: for every event stream and window `[s, e]` with `s ≤ e`, every event
(selected or synthetic) in the output of `filterEventsWithContext` satisfies
`s ≤ at ≤ e`. -/
theorem c2_window_containment (events : List Event) (s e : Int) (hle : s ≤ e)
    (ev : Event) (hev : ev ∈ filterEventsWithContext events s e) :
    s ≤ ev.atv ∧ ev.atv ≤ e :=
  mem_filterEvents_bounds events s e hle ev hev

/-- C2 witness: containment at the selected event `O f0 at 0` of the stream
`O f0 at 0, C f0 at 5` and window `[0, 10]`. -/
theorem c2_window_containment_witness :
    (0 : Int) ≤ (⟨EType.O, 0, 0⟩ : Event).atv ∧
      (⟨EType.O, 0, 0⟩ : Event).atv ≤ 10 :=
  c2_window_containment [⟨EType.O, 0, 0⟩, ⟨EType.C, 0, 5⟩] 0 10 (by decide)
    ⟨EType.O, 0, 0⟩ (by decide)

/-- C3 (counterexample): no window request is ever rejected.  The export data
path `exportFilteredProfile` (handleExportJson) is a total function with no
failure branch: on the inverted window `[5, 3]` (start > end) it still runs
`filterEventsWithContext` — which returns the empty selection — and produces
an ordinary document with `startValue = endValue = 0` instead of surfacing
any caller-visible typed failure. -/
theorem c3_invalid_window_counterexample :
    exportFilteredProfile [⟨EType.O, 0, 0⟩, ⟨EType.C, 0, 10⟩] 5 3 = ⟨0, 0, []⟩ ∧
    filterEventsWithContext [⟨EType.O, 0, 0⟩, ⟨EType.C, 0, 10⟩] 5 3 = [] := by
  refine ⟨by decide, by decide⟩

/-- C3 (amended): the code performs no window validation.  For every window
with `start > end`, `filterEventsWithContext` still runs and returns the
empty event list (no event satisfies `start ≤ at ≤ end`), and the export
path yields a normal document with `startValue = endValue = 0` and no
events. -/
theorem c3_invalid_window_amended (events : List Event) (s e : Int)
    (h : e < s) :
    filterEventsWithContext events s e = [] ∧
    exportFilteredProfile events s e = ⟨0, 0, []⟩ :=
  ⟨filterEvents_inverted events s e h, export_inverted events s e h⟩

/-- C3 witness: the amended theorem at the inverted window `[5, 3]`. -/
theorem c3_invalid_window_amended_witness :
    filterEventsWithContext [⟨EType.O, 0, 0⟩, ⟨EType.C, 0, 10⟩] 5 3 = [] ∧
    exportFilteredProfile [⟨EType.O, 0, 0⟩, ⟨EType.C, 0, 10⟩] 5 3 = ⟨0, 0, []⟩ :=
  c3_invalid_window_amended [⟨EType.O, 0, 0⟩, ⟨EType.C, 0, 10⟩] 5 3 (by decide)

/-- C4 (counterexample): on scenario A filtered to `[200, 600]`, the output
is not the claimed five-event set (the four listed selected events plus a
synthetic close for D): the selected open of D at 600 is inside the
inclusive window and appears in the output as well, so the output has six
events. -/
theorem c4_scenario_a_counterexample :
    ¬ (filterEventsWithContext demoA 200 600).Perm
      [⟨EType.O, 2, 200⟩, ⟨EType.O, 3, 300⟩, ⟨EType.C, 3, 400⟩,
       ⟨EType.C, 2, 500⟩, ⟨EType.C, 4, 600⟩] := by
  decide

/-- C4 (amended): filtering scenario A to `[200, 600]` yields exactly the
five selected events `{O,B,200}, {O,C,300}, {C,C,400}, {C,B,500}, {O,D,600}`
plus the single synthetic close for D at 600 (D's open at 600 is selected by
the inclusive bound `at ≤ end`, leaving D unbalanced), and no events at all
for main (frame 0) or A (frame 1). -/
theorem c4_scenario_a_amended :
    filterEventsWithContext demoA 200 600 =
      [⟨EType.O, 2, 200⟩, ⟨EType.O, 3, 300⟩, ⟨EType.C, 3, 400⟩,
       ⟨EType.C, 2, 500⟩, ⟨EType.O, 4, 600⟩, ⟨EType.C, 4, 600⟩] ∧
    ∀ ev ∈ filterEventsWithContext demoA 200 600, ev.frame ≠ 0 ∧ ev.frame ≠ 1 := by
  refine ⟨by decide, by decide⟩

/-- C5: in the serialized document the profile's `startValue` and `endValue`
are the minimum and maximum `at` over the final (selected plus synthetic)
event set — both 0 when that set is empty — and when the set is non-empty
they are attained by events of the set and never lie outside the requested
window `[s, e]`. -/
theorem c5_export_bounds (events : List Event) (s e : Int) (hle : s ≤ e) :
    (exportFilteredProfile events s e).startValue =
      profileStartValue (filterEventsWithContext events s e) ∧
    (exportFilteredProfile events s e).endValue =
      profileEndValue (filterEventsWithContext events s e) ∧
    (filterEventsWithContext events s e = [] →
      profileStartValue (filterEventsWithContext events s e) = 0 ∧
      profileEndValue (filterEventsWithContext events s e) = 0) ∧
    (∀ ev ∈ filterEventsWithContext events s e,
      profileStartValue (filterEventsWithContext events s e) ≤ ev.atv ∧
      ev.atv ≤ profileEndValue (filterEventsWithContext events s e)) ∧
    (filterEventsWithContext events s e ≠ [] →
      (∃ ev ∈ filterEventsWithContext events s e,
        ev.atv = profileStartValue (filterEventsWithContext events s e)) ∧
      (∃ ev ∈ filterEventsWithContext events s e,
        ev.atv = profileEndValue (filterEventsWithContext events s e)) ∧
      s ≤ profileStartValue (filterEventsWithContext events s e) ∧
      profileEndValue (filterEventsWithContext events s e) ≤ e) := by
  refine ⟨rfl, rfl, ?_, ?_, ?_⟩
  · intro hempty
    rw [hempty]
    exact ⟨rfl, rfl⟩
  · intro ev hev
    exact ⟨profileStartValue_min _ ev hev, profileEndValue_max _ ev hev⟩
  · intro hne
    obtain ⟨ev1, hev1, h1⟩ := profileStartValue_attained _ hne
    obtain ⟨ev2, hev2, h2⟩ := profileEndValue_attained _ hne
    refine ⟨⟨ev1, hev1, h1⟩, ⟨ev2, hev2, h2⟩, ?_, ?_⟩
    · rw [← h1]
      exact (mem_filterEvents_bounds events s e hle ev1 hev1).1
    · rw [← h2]
      exact (mem_filterEvents_bounds events s e hle ev2 hev2).2

/-- C5 witness: the bounds of the export of `O f0 at 2, C f0 at 5` under the
window `[0, 10]`: `startValue = 2` and `endValue = 5`, strictly inside the
requested window. -/
theorem c5_export_bounds_witness :
    (0 : Int) ≤ profileStartValue
      (filterEventsWithContext [⟨EType.O, 0, 2⟩, ⟨EType.C, 0, 5⟩] 0 10) ∧
    profileEndValue
      (filterEventsWithContext [⟨EType.O, 0, 2⟩, ⟨EType.C, 0, 5⟩] 0 10) ≤ 10 ∧
    (exportFilteredProfile [⟨EType.O, 0, 2⟩, ⟨EType.C, 0, 5⟩] 0 10).startValue =
      profileStartValue
        (filterEventsWithContext [⟨EType.O, 0, 2⟩, ⟨EType.C, 0, 5⟩] 0 10) := by
  have h := c5_export_bounds [⟨EType.O, 0, 2⟩, ⟨EType.C, 0, 5⟩] 0 10 (by decide)
  have hne : filterEventsWithContext [⟨EType.O, 0, 2⟩, ⟨EType.C, 0, 5⟩] 0 10 ≠ [] := by
    decide
  exact ⟨(h.2.2.2.2 hne).2.2.1, (h.2.2.2.2 hne).2.2.2, h.1⟩

/-- C6: for every frame table and event stream over it (every event's frame
index in range), `compressFramesAndRemap` returns a table containing exactly
the frames referenced by at least one event, with its retained old indices
ordered by first reference in the event stream, the new table no longer than
the old, every rewritten event's frame index strictly below the new length,
and every new table slot referenced by some rewritten event. -/
theorem c6_compaction_soundness {α : Type} [Inhabited α] (frames : List α)
    (events : List Event)
    (hvalid : ∀ ev ∈ events, ev.frame < frames.length) :
    (∀ x : α, x ∈ (compressFramesAndRemap frames events).1 ↔
      ∃ ev ∈ events, frames.get? ev.frame = some x) ∧
    List.Pairwise
      (fun a b : Nat => firstPos a (events.map Event.frame) <
        firstPos b (events.map Event.frame))
      ((buildCompress frames events).1.map Prod.fst) ∧
    (compressFramesAndRemap frames events).1.length ≤ frames.length ∧
    (∀ ev ∈ (compressFramesAndRemap frames events).2,
      ev.frame < (compressFramesAndRemap frames events).1.length) ∧
    (∀ j : Nat, j < (compressFramesAndRemap frames events).1.length →
      ∃ ev ∈ (compressFramesAndRemap frames events).2, ev.frame = j) := by
  refine ⟨?_, compress_order frames events, compress_len_le frames events hvalid,
    compress_remap_lt frames events, compress_no_unreferenced frames events⟩
  intro x
  rw [compress_table_content frames events x]
  constructor
  · rintro ⟨ev, hev, hx⟩
    refine ⟨ev, hev, ?_⟩
    rw [List.get?_eq_get (hvalid ev hev)] at hx ⊢
    rw [← hx]
    rfl
  · rintro ⟨ev, hev, hx⟩
    refine ⟨ev, hev, ?_⟩
    rw [hx]
    rfl

/-- C6 witness: the contract at the table `[10, 20, 30]` (of `Nat` frame
records) and the stream `O frame2 at 0, C frame2 at 5`: the compacted table
keeps only the referenced entry. -/
theorem c6_compaction_soundness_witness :
    ((20 : Nat) ∈ (compressFramesAndRemap [10, 20, 30]
      [⟨EType.O, 1, 0⟩, ⟨EType.C, 1, 5⟩]).1 ↔
      ∃ ev ∈ [(⟨EType.O, 1, 0⟩ : Event), ⟨EType.C, 1, 5⟩],
        ([10, 20, 30] : List Nat).get? ev.frame = some 20) ∧
    (compressFramesAndRemap [10, 20, 30]
      [(⟨EType.O, 1, 0⟩ : Event), ⟨EType.C, 1, 5⟩]).1.length ≤ 3 := by
  have h := @c6_compaction_soundness Nat _ [10, 20, 30]
    [⟨EType.O, 1, 0⟩, ⟨EType.C, 1, 5⟩] (by decide)
  exact ⟨h.1 20, h.2.2.1⟩

/-- C7: `compressFramesAndRemap` is idempotent — applying it to its own
output returns an equal frame table and event stream (value equality models
"structurally equal, differing at most in object identity"), so the relative
order of retained frames is stable under repeated compaction. -/
theorem c7_compress_idempotent {α : Type} [Inhabited α] (frames : List α)
    (events : List Event) :
    compressFramesAndRemap (compressFramesAndRemap frames events).1
      (compressFramesAndRemap frames events).2 =
    compressFramesAndRemap frames events :=
  compress_idem frames events

/-- C8: the number of synthetic events added by `filterEventsWithContext` is
at most twice the number of distinct frame indices appearing inside the
window (in fact at most once that number: at most one synthetic event per
tracked frame). -/
theorem c8_synthetic_bound (events : List Event) (s e : Int) :
    (filterEventsWithContext events s e).length =
      (events.filter (inWindow s e)).length +
        (syntheticEvents (pass1 events s e).1 s e).length ∧
    (syntheticEvents (pass1 events s e).1 s e).length ≤
      2 * (((events.filter (inWindow s e)).map Event.frame).toFinset).card := by
  refine ⟨filterEvents_length_split events s e, ?_⟩
  have h := synth_le_distinct events s e
  omega

/-- C9: within one export invocation, `getIndexForFrame` (1) keeps returning
the index assigned at the first call for a frame object — later calls, also
after further frames were interned, return the same index and leave the
state unchanged; (2) on the first call for a frame it appends a record
copying `name` and copying `file`/`line`/`col` exactly when non-null
(`serializeFrame`); and (3) two distinct frame objects (distinct reference
identity `id`, even with identical fields) receive distinct indices. -/
theorem c9_interner_contract (l l2 : List FrameObj) (f g : FrameObj)
    (hf : f ∈ l) (hg : g ∈ l) (hne : f.id ≠ g.id) :
    ((getIndexForFrame f (intern (l ++ l2))).1 =
      (getIndexForFrame f (intern l)).1) ∧
    ((getIndexForFrame f (intern l)).2 = intern l) ∧
    (∀ st : InternState, st.map.lookup f.id = none →
      getIndexForFrame f st =
        (st.frames.length,
         ⟨st.frames ++ [serializeFrame f], st.map ++ [(f.id, st.frames.length)]⟩)) ∧
    serializeFrame f = ⟨f.name, f.file, f.line, f.col⟩ ∧
    (getIndexForFrame f (intern l)).1 ≠ (getIndexForFrame g (intern l)).1 := by
  obtain ⟨i, hi⟩ := Option.isSome_iff_exists.mp (intern_lookup_isSome l f hf)
  obtain ⟨j, hj⟩ := Option.isSome_iff_exists.mp (intern_lookup_isSome l g hg)
  obtain ⟨hvals, hnd⟩ := internInv_run l
  have hvalnd : ((intern l).map.map Prod.snd).Nodup := by
    rw [hvals]
    exact List.nodup_range _
  refine ⟨?_, ?_, ?_, rfl, ?_⟩
  · rw [getIndexForFrame_hit _ f i hi,
      getIndexForFrame_hit _ f i (intern_append_lookup l l2 f.id i hi)]
  · rw [getIndexForFrame_hit _ f i hi]
  · intro st hst
    exact getIndexForFrame_miss st f hst
  · rw [getIndexForFrame_hit _ f i hi, getIndexForFrame_hit _ g j hj]
    exact lookup_values_distinct (intern l).map hvalnd f.id g.id i j hi hj hne

/-- C9 witness: two distinct frame objects with identical `name` and
metadata fields interned in one invocation receive distinct indices. -/
theorem c9_interner_contract_witness :
    (getIndexForFrame ⟨0, "fn", none, none, none⟩
        (intern [⟨0, "fn", none, none, none⟩, ⟨1, "fn", none, none, none⟩])).1 ≠
      (getIndexForFrame ⟨1, "fn", none, none, none⟩
        (intern [⟨0, "fn", none, none, none⟩, ⟨1, "fn", none, none, none⟩])).1 :=
  (c9_interner_contract
    [⟨0, "fn", none, none, none⟩, ⟨1, "fn", none, none, none⟩] []
    ⟨0, "fn", none, none, none⟩ ⟨1, "fn", none, none, none⟩
    (by decide) (by decide) (by decide)).2.2.2.2

/-- C10: `compressFramesAndRemap` keeps the number and relative order of
events, leaves every event's `type` and `at` unchanged (only `frame` is
rewritten), and fills the new table exclusively with entries of the input
table. -/
theorem c10_compress_frame_effect {α : Type} [Inhabited α] (frames : List α)
    (events : List Event)
    (hvalid : ∀ ev ∈ events, ev.frame < frames.length) :
    (compressFramesAndRemap frames events).2.length = events.length ∧
    (∀ k : Nat,
      ((compressFramesAndRemap frames events).2.get? k).map Event.type =
        (events.get? k).map Event.type ∧
      ((compressFramesAndRemap frames events).2.get? k).map Event.atv =
        (events.get? k).map Event.atv) ∧
    (∀ x ∈ (compressFramesAndRemap frames events).1, x ∈ frames) :=
  ⟨(compress_events_preserved frames events).1,
   (compress_events_preserved frames events).2,
   fun x hx => compress_mem_table frames events x hvalid hx⟩

/-- C10 witness: at the table `[7, 8]` and the single event `O frame1 at 3`
the rewritten stream has the same length, type and timestamp, and the
compacted table's entry comes from the input table. -/
theorem c10_compress_frame_effect_witness :
    (compressFramesAndRemap [7, 8] [(⟨EType.O, 1, 3⟩ : Event)]).2.length = 1 ∧
    ((compressFramesAndRemap [7, 8] [(⟨EType.O, 1, 3⟩ : Event)]).2.get? 0).map
      Event.atv = some 3 := by
  have h := @c10_compress_frame_effect Nat _ [7, 8] [⟨EType.O, 1, 3⟩] (by decide)
  refine ⟨h.1, ?_⟩
  have h2 := (h.2.1 0).2
  rw [h2]
  rfl
